import Mathlib

/-!
Verification of the pdb-go PDB/MSF parsing library.

Shallow embedding of the Go sources:
* `internal/stream`  : bounded little-endian byte reader (`Reader`)
* `msf`              : superblock validation, virtual `Stream` (ReadAt/Read/Seek)
* `internal/symbols` : symbol-record framing, name index, address index
* `internal/tpi`     : type records, field lists, CodeView numerics
* `pdb`              : type table (member index, inheritance BFS), symbol table
* `internal/demangle`: MSVC demangler error policy

Bytes are modelled as `Nat`; the primitive byte access reduces modulo 256,
reflecting the `[]byte` element type of the Go source.  Machine-width
arithmetic (`uint32`, `uint64`) is carried out on `Nat`/`Int` with explicit
`% 2^w` at the points where Go's fixed-width types wrap.
-/

namespace PdbGo

/-! ## internal/stream: bounded byte reader -/

namespace Strm

/-- Error values of the `stream` package reader (`ErrUnexpectedEOF`,
`ErrInvalidNumeric` are the ones reachable from the embedded operations). -/
inductive RErr where
  | unexpectedEOF
  | invalidNumeric
  deriving DecidableEq, Repr

/-- `stream.Reader`: a borrowed byte range plus a cursor. -/
structure Reader where
  data : List Nat
  offset : Nat
  deriving DecidableEq, Repr

/-- Byte access into a `[]byte`; `% 256` models the byte element type. -/
def byteAt (d : List Nat) (i : Nat) : Nat := d.getD i 0 % 256

/-- `Reader.Remaining`. -/
def Reader.remaining (r : Reader) : Nat :=
  if r.offset ≥ r.data.length then 0 else r.data.length - r.offset

/-- `Reader.ReadU8`. -/
def readU8 (r : Reader) : Except RErr (Nat × Reader) :=
  if r.offset ≥ r.data.length then .error .unexpectedEOF
  else .ok (byteAt r.data r.offset, ⟨r.data, r.offset + 1⟩)

/-- `Reader.ReadU16` (`binary.LittleEndian.Uint16`). -/
def readU16 (r : Reader) : Except RErr (Nat × Reader) :=
  if r.offset + 2 > r.data.length then .error .unexpectedEOF
  else .ok (byteAt r.data r.offset + 256 * byteAt r.data (r.offset + 1),
            ⟨r.data, r.offset + 2⟩)

/-- `Reader.ReadU32`. -/
def readU32 (r : Reader) : Except RErr (Nat × Reader) :=
  if r.offset + 4 > r.data.length then .error .unexpectedEOF
  else .ok (byteAt r.data r.offset + 256 * byteAt r.data (r.offset + 1) +
            256 ^ 2 * byteAt r.data (r.offset + 2) + 256 ^ 3 * byteAt r.data (r.offset + 3),
            ⟨r.data, r.offset + 4⟩)

/-- `Reader.ReadU64`. -/
def readU64 (r : Reader) : Except RErr (Nat × Reader) :=
  if r.offset + 8 > r.data.length then .error .unexpectedEOF
  else .ok ((List.range 8).foldr (fun i acc => acc + 256 ^ i * byteAt r.data (r.offset + i)) 0,
            ⟨r.data, r.offset + 8⟩)

/-- Two's-complement decode of a `w`-bit unsigned value to `Int`. -/
def toSigned (w : Nat) (v : Nat) : Int :=
  if v < 2 ^ (w - 1) then (v : Int) else (v : Int) - 2 ^ w

/-- `Reader.ReadI8` (`int8(v)`). -/
def readI8 (r : Reader) : Except RErr (Int × Reader) :=
  (readU8 r).map fun (v, r') => (toSigned 8 v, r')

/-- `Reader.ReadI16`. -/
def readI16 (r : Reader) : Except RErr (Int × Reader) :=
  (readU16 r).map fun (v, r') => (toSigned 16 v, r')

/-- `Reader.ReadI32`. -/
def readI32 (r : Reader) : Except RErr (Int × Reader) :=
  (readU32 r).map fun (v, r') => (toSigned 32 v, r')

/-- `Reader.ReadI64`. -/
def readI64 (r : Reader) : Except RErr (Int × Reader) :=
  (readU64 r).map fun (v, r') => (toSigned 64 v, r')

/-- Go's `uint64(x)` conversion of a signed 64-bit value: reduction mod `2^64`. -/
def u64ofInt (i : Int) : Nat := (i % (2 ^ 64 : Int)).toNat

/-- `Reader.ReadCString`: bytes up to (not including) the first NUL. -/
def readCStringGo (d : List Nat) (off : Nat) (fuel : Nat) :
    Except RErr (List Nat × Nat) :=
  match fuel with
  | 0 => .error .unexpectedEOF
  | fuel + 1 =>
    if off ≥ d.length then .error .unexpectedEOF
    else if byteAt d off = 0 then .ok ([], off + 1)
    else (readCStringGo d (off + 1) fuel).map fun (s, off') => (byteAt d off :: s, off')

/-- `Reader.ReadCString` wrapper. -/
def readCString (r : Reader) : Except RErr (List Nat × Reader) :=
  (readCStringGo r.data r.offset (r.data.length + 1)).map
    fun (s, off') => (s, ⟨r.data, off'⟩)

/-- `Reader.ReadNumeric`: CodeView variable-length numeric, widened to a
`uint64` result (signed variants sign-extended via Go's `uint64(v)`). -/
def readNumeric (r : Reader) : Except RErr (Nat × Reader) :=
  match readU16 r with
  | .error e => .error e
  | .ok (leaf, r1) =>
    if leaf < 0x8000 then .ok (leaf, r1)
    else
      match leaf with
      | 0x8000 => (readI8 r1).map fun (v, r2) => (u64ofInt v, r2)
      | 0x8001 => (readI16 r1).map fun (v, r2) => (u64ofInt v, r2)
      | 0x8002 => (readU16 r1).map fun (v, r2) => (v, r2)
      | 0x8003 => (readI32 r1).map fun (v, r2) => (u64ofInt v, r2)
      | 0x8004 => (readU32 r1).map fun (v, r2) => (v, r2)
      | 0x8009 => (readI64 r1).map fun (v, r2) => (u64ofInt v, r2)
      | 0x800a => readU64 r1
      | _ => .error .invalidNumeric

/-- `Reader.PeekU8`. -/
def peekU8 (r : Reader) : Except RErr Nat :=
  if r.offset ≥ r.data.length then .error .unexpectedEOF
  else .ok (byteAt r.data r.offset)

end Strm

/-! ## msf: virtual streams and the superblock -/

namespace Msf

open Strm (byteAt)

/-- Errors produced by `Stream.ReadAt`/`Read` (`io.EOF` and the negative-offset
error). -/
inductive ReadErr where
  | eof
  | negOffset
  deriving DecidableEq, Repr

/-- `msf.Stream`: block list, block size, stream size and a read cursor over an
underlying random-access byte source of `fileSize` bytes. -/
structure Stream where
  fileSize : Nat
  file : Nat → Nat
  blocks : List Nat
  blockSize : Nat
  streamSize : Nat
  pos : Nat

/-- Model of the underlying `io.ReaderAt` (an `os.File`): a read of `n` bytes at
`off` yields `min n (fileSize - off)` bytes and reports `io.EOF` exactly when
fewer than `n` bytes were available. -/
def fileReadAt (fileSize : Nat) (file : Nat → Nat) (off n : Nat) : List Nat × Bool :=
  let k := min n (fileSize - off)
  ((List.range k).map fun i => file (off + i), decide (k < n))

/-- Exit status of the `for` loop inside `Stream.ReadAt`: either the loop fell
through (condition false, or `break` on a partial read at end of file) or a
`return` statement fired with an error. -/
inductive LoopOut where
  | fell (acc : List Nat)
  | ret (acc : List Nat) (e : ReadErr)
  deriving Repr

/-- The block-splicing loop of `Stream.ReadAt`.  `plen` is the number of bytes
still requested, `pos` the stream offset, `acc` the bytes copied so far.  The
fuel argument only bounds recursion depth; `plen + 1` is sufficient whenever
`blockSize > 0` because every continuing iteration copies at least one byte. -/
def readAtLoop (s : Stream) : Nat → Nat → Nat → List Nat → LoopOut
  | 0, _, _, acc => .fell acc
  | fuel + 1, plen, pos, acc =>
    if 0 < plen ∧ pos < s.streamSize then
      let blockIndex := pos / s.blockSize
      let blockOffset := pos % s.blockSize
      if s.blocks.length ≤ blockIndex then .ret acc .eof
      else
        let fileOffset := s.blocks.getD blockIndex 0 * s.blockSize + blockOffset
        let blockRemaining := s.blockSize - blockOffset
        let streamRemaining := s.streamSize - pos
        let toRead1 := if blockRemaining < plen then blockRemaining else plen
        let toRead := if streamRemaining < toRead1 then streamRemaining else toRead1
        let res := fileReadAt s.fileSize s.file fileOffset toRead
        let acc' := acc ++ res.1
        if res.2 then
          if 0 < acc'.length then .fell acc'     -- `break` (partial read at EOF)
          else .ret acc' .eof                    -- `return totalRead, err`
        else readAtLoop s fuel (plen - res.1.length) (pos + res.1.length) acc'
    else .fell acc

/-- `Stream.ReadAt`: read `plen` bytes at byte offset `off`, splicing blocks.
Returns the bytes read and the error value. -/
def readAt (s : Stream) (plen : Nat) (off : Int) : List Nat × Option ReadErr :=
  if off < 0 then ([], some .negOffset)
  else if (s.streamSize : Int) ≤ off then ([], some .eof)
  else
    match readAtLoop s (plen + 1) plen off.toNat [] with
    | .ret acc e => (acc, some e)
    | .fell acc =>
      -- post-loop: `if totalRead == 0 && int64(s.pos) >= int64(s.streamSize)`
      if acc.length = 0 ∧ s.streamSize ≤ s.pos then ([], some .eof)
      else (acc, none)

/-- `Stream.Read`: sequential read of `plen` bytes at the cursor; returns the
bytes, the updated cursor (a `uint32` in Go, hence the `% 2^32`), and the
error value. -/
def read (s : Stream) (plen : Nat) : List Nat × Nat × Option ReadErr :=
  if s.streamSize ≤ s.pos then ([], s.pos, some .eof)
  else
    let plen' := if s.streamSize - s.pos < plen then s.streamSize - s.pos else plen
    let res := readAt s plen' (s.pos : Int)
    (res.1, (s.pos + res.1.length) % 2 ^ 32, res.2)

/-- Errors produced by `Stream.Seek`. -/
inductive SeekErr where
  | invalidWhence
  | negativePosition
  deriving DecidableEq, Repr

/-- The `switch whence` of `Stream.Seek`: the computed target position
(`io.SeekStart` = 0, `io.SeekCurrent` = 1, `io.SeekEnd` = 2), `none` for an
unknown `whence`. -/
def seekTarget (s : Stream) (offset : Int) (whence : Nat) : Option Int :=
  if whence = 0 then some offset
  else if whence = 1 then some ((s.pos : Int) + offset)
  else if whence = 2 then some ((s.streamSize : Int) + offset)
  else none

/-- `Stream.Seek`: rejects negative targets and unknown `whence` values,
clamps past-end targets to the stream size, and stores the result in the
`uint32` cursor.  Returns the `(int64, error)` result paired with the cursor
value after the call (unchanged on the error paths). -/
def seek (s : Stream) (offset : Int) (whence : Nat) : Except SeekErr Int × Nat :=
  match seekTarget s offset whence with
  | none => (.error .invalidWhence, s.pos)
  | some newPos =>
    if newPos < 0 then (.error .negativePosition, s.pos)
    else
      let clamped := if (s.streamSize : Int) < newPos then (s.streamSize : Int) else newPos
      (.ok clamped, clamped.toNat % 2 ^ 32)

/-- The 32-byte MSF 7.0 magic `"Microsoft C/C++ MSF 7.00\r\n\x1aDS\0\0\0"`. -/
def magic : List Nat :=
  [0x4D, 0x69, 0x63, 0x72, 0x6F, 0x73, 0x6F, 0x66, 0x74, 0x20, 0x43, 0x2F,
   0x43, 0x2B, 0x2B, 0x20, 0x4D, 0x53, 0x46, 0x20, 0x37, 0x2E, 0x30, 0x30,
   0x0D, 0x0A, 0x1A, 0x44, 0x53, 0x00, 0x00, 0x00]

/-- `msf.SuperBlock`. -/
structure SuperBlock where
  fileMagic : List Nat
  blockSize : Nat
  freeBlockMapBlock : Nat
  numBlocks : Nat
  numDirectoryBytes : Nat
  unknown : Nat
  blockMapAddr : Nat
  deriving DecidableEq, Repr

/-- Little-endian `uint32` at byte offset `i`. -/
def u32At (d : List Nat) (i : Nat) : Nat :=
  byteAt d i + 256 * byteAt d (i + 1) + 256 ^ 2 * byteAt d (i + 2) +
    256 ^ 3 * byteAt d (i + 3)

/-- `binary.Read` of the 56-byte superblock (little-endian); `none` models the
short-read failure mapped to `ErrTruncatedFile`. -/
def parseSuperBlock (d : List Nat) : Option SuperBlock :=
  if d.length < 56 then none
  else some
    { fileMagic := (List.range 32).map fun i => byteAt d i
      blockSize := u32At d 32
      freeBlockMapBlock := u32At d 36
      numBlocks := u32At d 40
      numDirectoryBytes := u32At d 44
      unknown := u32At d 48
      blockMapAddr := u32At d 52 }

/-- Open-path errors of the `msf` package reachable from `NewFile`. -/
inductive MsfError where
  | invalidMagic
  | invalidBlockSize
  | invalidFpmBlock
  | truncatedFile
  | fileTooSmall
  deriving DecidableEq, Repr

/-- `SuperBlock.Validate`. -/
def validate (sb : SuperBlock) : Option MsfError :=
  if sb.fileMagic ≠ magic then some .invalidMagic
  else if sb.blockSize < 512 ∨ 65536 < sb.blockSize then some .invalidBlockSize
  else if sb.blockSize &&& (sb.blockSize - 1) ≠ 0 then some .invalidBlockSize
  else if sb.freeBlockMapBlock ≠ 1 ∧ sb.freeBlockMapBlock ≠ 2 then some .invalidFpmBlock
  else none

/-- `NewFile` over an in-memory file `d`: the `size < SuperBlockSize` check,
`ReadSuperBlock` (parse + validate), and the
`size < sb.FileSize()` check. -/
def newFile (d : List Nat) : Except MsfError SuperBlock :=
  if d.length < 56 then .error .truncatedFile
  else
    match parseSuperBlock d with
    | none => .error .truncatedFile
    | some sb =>
      match validate sb with
      | some e => .error e
      | none =>
        if d.length < sb.numBlocks * sb.blockSize then .error .fileTooSmall
        else .ok sb

end Msf

/-! ## internal/symbols: record framing, name index, address index -/

namespace Sym

open Strm (byteAt)

/-- The `SymbolRecordKind` values used by the embedded code paths. -/
def S_CONSTANT : Nat := 0x1107
def S_UDT : Nat := 0x1108
def S_LDATA32 : Nat := 0x110c
def S_GDATA32 : Nat := 0x110d
def S_PUB32 : Nat := 0x110e
def S_LPROC32 : Nat := 0x110f
def S_GPROC32 : Nat := 0x1110
def S_LPROC32_ID : Nat := 0x1146
def S_GPROC32_ID : Nat := 0x1147

/-- `symbols.SymbolRecord`: kind tag plus the borrowed payload slice. -/
structure SymbolRecord where
  kind : Nat
  data : List Nat
  deriving DecidableEq, Repr

/-- Errors of the symbols package reachable from `ParseSymbolRecord`. -/
inductive SymErr where
  | unexpectedEnd
  | invalidSymbolRecord
  deriving DecidableEq, Repr

/-- `ParseSymbolRecord`: 16-bit length (not counting itself), 16-bit kind;
total size is `length + 2`; payload is `data[4 : 4 + (length - 2)]`. -/
def parseSymbolRecord (d : List Nat) : Except SymErr (SymbolRecord × Nat) :=
  if d.length < 4 then .error .unexpectedEnd
  else if d.length < (byteAt d 0 + 256 * byteAt d 1) + 2 then .error .unexpectedEnd
  else if byteAt d 0 + 256 * byteAt d 1 < 2 then .error .invalidSymbolRecord
  else .ok (⟨byteAt d 2 + 256 * byteAt d 3,
             (d.drop 4).take (byteAt d 0 + 256 * byteAt d 1 - 2)⟩,
            byteAt d 0 + 256 * byteAt d 1 + 2)

/-- `symbols.PublicSym32`. -/
structure PublicSym32 where
  flags : Nat
  offset : Nat
  segment : Nat
  name : List Nat
  deriving DecidableEq, Repr

/-- `ParsePublicSym32`: u32 flags, u32 offset, u16 segment, C-string name. -/
def parsePublicSym32 (d : List Nat) : Except Strm.RErr PublicSym32 :=
  match Strm.readU32 ⟨d, 0⟩ with
  | .error e => .error e
  | .ok (flags, r1) =>
    match Strm.readU32 r1 with
    | .error e => .error e
    | .ok (offset, r2) =>
      match Strm.readU16 r2 with
      | .error e => .error e
      | .ok (segment, r3) =>
        match Strm.readCString r3 with
        | .error e => .error e
        | .ok (name, _) => .ok ⟨flags, offset, segment, name⟩

/-- `symbols.ProcSym` (S_GPROC32/S_LPROC32/…). -/
structure ProcSym where
  ptrParent : Nat
  ptrEnd : Nat
  ptrNext : Nat
  codeSize : Nat
  dbgStart : Nat
  dbgEnd : Nat
  functionType : Nat
  codeOffset : Nat
  segment : Nat
  flags : Nat
  name : List Nat
  deriving DecidableEq, Repr

/-- `ParseProcSym`: seven u32 fields, u32 code offset, u16 segment, u8 flags,
C-string name. -/
def parseProcSym (d : List Nat) : Except Strm.RErr ProcSym :=
  match Strm.readU32 ⟨d, 0⟩ with
  | .error e => .error e
  | .ok (ptrParent, r1) =>
  match Strm.readU32 r1 with
  | .error e => .error e
  | .ok (ptrEnd, r2) =>
  match Strm.readU32 r2 with
  | .error e => .error e
  | .ok (ptrNext, r3) =>
  match Strm.readU32 r3 with
  | .error e => .error e
  | .ok (codeSize, r4) =>
  match Strm.readU32 r4 with
  | .error e => .error e
  | .ok (dbgStart, r5) =>
  match Strm.readU32 r5 with
  | .error e => .error e
  | .ok (dbgEnd, r6) =>
  match Strm.readU32 r6 with
  | .error e => .error e
  | .ok (funcType, r7) =>
  match Strm.readU32 r7 with
  | .error e => .error e
  | .ok (codeOffset, r8) =>
  match Strm.readU16 r8 with
  | .error e => .error e
  | .ok (segment, r9) =>
  match Strm.readU8 r9 with
  | .error e => .error e
  | .ok (flags, r10) =>
  match Strm.readCString r10 with
  | .error e => .error e
  | .ok (name, _) =>
    .ok ⟨ptrParent, ptrEnd, ptrNext, codeSize, dbgStart, dbgEnd, funcType,
         codeOffset, segment, flags, name⟩

/-- `symbols.DataSym` (S_GDATA32/S_LDATA32). -/
structure DataSym where
  type : Nat
  offset : Nat
  segment : Nat
  name : List Nat
  deriving DecidableEq, Repr

/-- `ParseDataSym`: u32 type, u32 offset, u16 segment, C-string name. -/
def parseDataSym (d : List Nat) : Except Strm.RErr DataSym :=
  match Strm.readU32 ⟨d, 0⟩ with
  | .error e => .error e
  | .ok (typeIndex, r1) =>
  match Strm.readU32 r1 with
  | .error e => .error e
  | .ok (offset, r2) =>
  match Strm.readU16 r2 with
  | .error e => .error e
  | .ok (segment, r3) =>
  match Strm.readCString r3 with
  | .error e => .error e
  | .ok (name, _) => .ok ⟨typeIndex, offset, segment, name⟩

/-- `symbols.UDTSym` (S_UDT). -/
structure UDTSym where
  type : Nat
  name : List Nat
  deriving DecidableEq, Repr

/-- `ParseUDTSym`: u32 type, C-string name. -/
def parseUDTSym (d : List Nat) : Except Strm.RErr UDTSym :=
  match Strm.readU32 ⟨d, 0⟩ with
  | .error e => .error e
  | .ok (typeIndex, r1) =>
  match Strm.readCString r1 with
  | .error e => .error e
  | .ok (name, _) => .ok ⟨typeIndex, name⟩

/-- `symbols.ConstantSym` (S_CONSTANT). -/
structure ConstantSym where
  type : Nat
  value : Nat
  name : List Nat
  deriving DecidableEq, Repr

/-- `ParseConstantSym`: u32 type, CodeView numeric value, C-string name. -/
def parseConstantSym (d : List Nat) : Except Strm.RErr ConstantSym :=
  match Strm.readU32 ⟨d, 0⟩ with
  | .error e => .error e
  | .ok (typeIndex, r1) =>
  match Strm.readNumeric r1 with
  | .error e => .error e
  | .ok (value, r2) =>
  match Strm.readCString r2 with
  | .error e => .error e
  | .ok (name, _) => .ok ⟨typeIndex, value, name⟩

/-- `getSymbolName`: extract the raw name of a record for the nameable kinds
(empty for other kinds or when the payload parse fails). -/
def getSymbolName (rec : SymbolRecord) : List Nat :=
  if rec.kind = S_PUB32 then
    match parsePublicSym32 rec.data with
    | .ok s => s.name
    | .error _ => []
  else if rec.kind = S_GPROC32 ∨ rec.kind = S_LPROC32 ∨
      rec.kind = S_GPROC32_ID ∨ rec.kind = S_LPROC32_ID then
    match parseProcSym rec.data with
    | .ok s => s.name
    | .error _ => []
  else if rec.kind = S_GDATA32 ∨ rec.kind = S_LDATA32 then
    match parseDataSym rec.data with
    | .ok s => s.name
    | .error _ => []
  else if rec.kind = S_UDT then
    match parseUDTSym rec.data with
    | .ok s => s.name
    | .error _ => []
  else if rec.kind = S_CONSTANT then
    match parseConstantSym rec.data with
    | .ok s => s.name
    | .error _ => []
  else []

/-- The record-iteration loop shared by `SymbolTable.Public`, `PublicCached`,
`PublicCount` (condition `offset < len(data)-4`) and `NewNameIndex`
(condition `r.Remaining() > 4`, the same predicate, with `r.Skip(size)`):
records are visited in order, the cursor advancing by the size returned by
`ParseSymbolRecord`, stopping at the first framing error.  Yields the
`(offset, record, size)` triples visited.  The fuel argument only bounds the
recursion; `d.length + 1` always suffices since each step advances. -/
def scanGo (d : List Nat) : Nat → Nat → List (Nat × SymbolRecord × Nat)
  | 0, _ => []
  | fuel + 1, offset =>
    if offset < d.length - 4 then
      match parseSymbolRecord (d.drop offset) with
      | .error _ => []
      | .ok (rec, size) => (offset, rec, size) :: scanGo d fuel (offset + size)
    else []

/-- The record chain starting at `offset` (with always-sufficient fuel). -/
def scanFrom (d : List Nat) (offset : Nat) : List (Nat × SymbolRecord × Nat) :=
  scanGo d (d.length + 1) offset

/-- All records visited by the iteration loops, from offset 0. -/
def scanRecords (d : List Nat) : List (Nat × SymbolRecord × Nat) :=
  scanFrom d 0

/-- `hashName`: `h := h*31 + b` in `uint32` arithmetic. -/
def hashName (name : List Nat) : Nat :=
  name.foldl (fun h b => (h * 31 + b) % 2 ^ 32) 0

/-- An entry of the `NameIndex` buckets. -/
structure NameEntry where
  name : List Nat
  symOffset : Nat
  deriving DecidableEq, Repr

/-- The `(name, offset)` pairs inserted by `NewNameIndex`'s scan, in stream
order (records whose extracted name is empty are skipped). -/
def nameEntries (d : List Nat) : List NameEntry :=
  (scanRecords d).filterMap fun t =>
    let n := getSymbolName t.2.1
    if n = [] then none else some ⟨n, t.1⟩

/-- Bucket `b` of the fixed 4096-bucket hash table: the entries hashed to it,
in insertion (append) order. -/
def bucket (d : List Nat) (b : Nat) : List NameEntry :=
  (nameEntries d).filter fun e => hashName e.name % 4096 = b

/-- `NameIndex.FindByName`: linear walk of bucket `hash(name) % 4096`, keeping
exact name matches. -/
def findByName (d : List Nat) (name : List Nat) : List Nat :=
  ((bucket d (hashName name % 4096)).filter fun e => e.name = name).map
    (·.symOffset)

/-- `symbols.SymbolAddress` (section, offset, symbol-stream offset). -/
structure SymbolAddress where
  sec : Nat
  offset : Nat
  symOffset : Nat
  deriving DecidableEq, Repr

/-- The entry-collection loop of `NewAddressIndex` (before sorting): for every
address-map slot, decode the record; keep it only if it is a well-framed
`S_PUB32` whose payload parses. -/
def rawAddrEntries (addrMap symData : List Nat) : List SymbolAddress :=
  addrMap.filterMap fun symOffset =>
    if symData.length < symOffset + 10 then none
    else
      match parseSymbolRecord (symData.drop symOffset) with
      | .error _ => none
      | .ok (rec, _) =>
        if rec.kind ≠ S_PUB32 then none
        else
          match parsePublicSym32 rec.data with
          | .error _ => none
          | .ok sym => some ⟨sym.segment, sym.offset, symOffset⟩

/-- The comparison of `NewAddressIndex`'s `sort.Slice` as a total preorder:
by section, then by offset. -/
def addrLE (a b : SymbolAddress) : Bool :=
  if a.sec ≠ b.sec then decide (a.sec < b.sec) else decide (a.offset ≤ b.offset)

/-- `NewAddressIndex`: collected entries sorted ascending by
(section, offset). -/
def newAddressIndex (addrMap symData : List Nat) : List SymbolAddress :=
  (rawAddrEntries addrMap symData).mergeSort addrLE

/-- The loop of Go's `sort.Search` (binary search for the least index
satisfying `pred`, assuming `pred` is monotone).  Fuel bounds the recursion;
`j - i` iterations always suffice. -/
def sortSearchGo (pred : Nat → Bool) : Nat → Nat → Nat → Nat
  | 0, i, _ => i
  | fuel + 1, i, j =>
    if i < j then
      let h := (i + j) / 2
      if ! pred h then sortSearchGo pred fuel (h + 1) j
      else sortSearchGo pred fuel i h
    else i

/-- `sort.Search n pred`. -/
def sortSearch (n : Nat) (pred : Nat → Bool) : Nat :=
  sortSearchGo pred n 0 n

/-- Indexing into the entry list (indices are always in bounds where used). -/
def entryAt (entries : List SymbolAddress) (i : Nat) : SymbolAddress :=
  entries.getD i ⟨0, 0, 0⟩

/-- The binary-search predicate of `FindByAddress`. -/
def findPred (entries : List SymbolAddress) (sec offset : Nat) (i : Nat) : Bool :=
  if (entryAt entries i).sec ≠ sec then decide (sec < (entryAt entries i).sec)
  else decide (offset ≤ (entryAt entries i).offset)

/-- The branch structure of `FindByAddress` after the binary search returned
index `i`: exact hit, containing predecessor, or not found. -/
def findByAddressAt (entries : List SymbolAddress) (sec offset i : Nat) :
    Option (Nat × Bool) :=
  if i < entries.length ∧ (entryAt entries i).sec = sec ∧
      (entryAt entries i).offset = offset then
    some ((entryAt entries i).symOffset, true)
  else if 0 < i ∧ (entryAt entries (i - 1)).sec = sec then
    some ((entryAt entries (i - 1)).symOffset, false)
  else none

/-- `AddressIndex.FindByAddress`: `none` models `found = false`; otherwise
`some (symOffset, exact)`. -/
def findByAddress (entries : List SymbolAddress) (sec offset : Nat) :
    Option (Nat × Bool) :=
  if entries.length = 0 then none
  else findByAddressAt entries sec offset
    (sortSearch entries.length (findPred entries sec offset))

end Sym

/-! ## internal/tpi: type records and field lists -/

namespace Tpi

open Strm (byteAt)

/-- The `TypeRecordKind` values used by the embedded code paths. -/
def LF_CLASS_ST : Nat := 0x1004
def LF_STRUCTURE_ST : Nat := 0x1005
def LF_UNION_ST : Nat := 0x1006
def LF_FIELDLIST : Nat := 0x1203
def LF_BCLASS : Nat := 0x1400
def LF_VBCLASS : Nat := 0x1401
def LF_IVBCLASS : Nat := 0x1402
def LF_INDEX : Nat := 0x1404
def LF_VFUNCTAB : Nat := 0x1409
def LF_ENUMERATE : Nat := 0x1502
def LF_CLASS : Nat := 0x1504
def LF_STRUCTURE : Nat := 0x1505
def LF_UNION : Nat := 0x1506
def LF_MEMBER : Nat := 0x150d
def LF_STMEMBER : Nat := 0x150e
def LF_METHOD : Nat := 0x150f
def LF_NESTTYPE : Nat := 0x1510
def LF_ONEMETHOD : Nat := 0x1511

/-- `ClassProperties.IsForwardRef`: bit 0x0080. -/
def isForwardRef (props : Nat) : Bool := props &&& 0x0080 ≠ 0

/-- `ClassProperties.HasUniqueName`: bit 0x0200. -/
def hasUniqueName (props : Nat) : Bool := props &&& 0x0200 ≠ 0

/-- `tpi.TypeRecord`: kind tag plus raw payload. -/
structure TypeRecord where
  kind : Nat
  data : List Nat
  deriving DecidableEq, Repr

/-- `tpi.ClassRecord` (LF_CLASS / LF_STRUCTURE / LF_INTERFACE). -/
structure ClassRecord where
  memberCount : Nat
  properties : Nat
  fieldList : Nat
  derivedFrom : Nat
  vshape : Nat
  size : Nat
  name : List Nat
  uniqueName : List Nat
  deriving DecidableEq, Repr

/-- `ParseClassRecord`: u16 count, u16 properties, u32 field list, u32
derived-from, u32 vshape, numeric size, C-string name, then a second C-string
when `HasUniqueName`. -/
def parseClassRecord (d : List Nat) : Except Strm.RErr ClassRecord :=
  match Strm.readU16 ⟨d, 0⟩ with
  | .error e => .error e
  | .ok (memberCount, r1) =>
  match Strm.readU16 r1 with
  | .error e => .error e
  | .ok (props, r2) =>
  match Strm.readU32 r2 with
  | .error e => .error e
  | .ok (fieldList, r3) =>
  match Strm.readU32 r3 with
  | .error e => .error e
  | .ok (derivedFrom, r4) =>
  match Strm.readU32 r4 with
  | .error e => .error e
  | .ok (vshape, r5) =>
  match Strm.readNumeric r5 with
  | .error e => .error e
  | .ok (size, r6) =>
  match Strm.readCString r6 with
  | .error e => .error e
  | .ok (name, r7) =>
    if hasUniqueName props then
      match Strm.readCString r7 with
      | .error e => .error e
      | .ok (uniqueName, _) =>
        .ok ⟨memberCount, props, fieldList, derivedFrom, vshape, size, name, uniqueName⟩
    else
      .ok ⟨memberCount, props, fieldList, derivedFrom, vshape, size, name, []⟩

/-- `tpi.UnionRecord` (LF_UNION). -/
structure UnionRecord where
  memberCount : Nat
  properties : Nat
  fieldList : Nat
  size : Nat
  name : List Nat
  uniqueName : List Nat
  deriving DecidableEq, Repr

/-- `ParseUnionRecord`. -/
def parseUnionRecord (d : List Nat) : Except Strm.RErr UnionRecord :=
  match Strm.readU16 ⟨d, 0⟩ with
  | .error e => .error e
  | .ok (memberCount, r1) =>
  match Strm.readU16 r1 with
  | .error e => .error e
  | .ok (props, r2) =>
  match Strm.readU32 r2 with
  | .error e => .error e
  | .ok (fieldList, r3) =>
  match Strm.readNumeric r3 with
  | .error e => .error e
  | .ok (size, r4) =>
  match Strm.readCString r4 with
  | .error e => .error e
  | .ok (name, r5) =>
    if hasUniqueName props then
      match Strm.readCString r5 with
      | .error e => .error e
      | .ok (uniqueName, _) =>
        .ok ⟨memberCount, props, fieldList, size, name, uniqueName⟩
    else
      .ok ⟨memberCount, props, fieldList, size, name, []⟩

/-- A decoded field-list sub-record (the `FieldListMember` implementations). -/
inductive FieldListMember where
  | member (access typ offset : Nat) (name : List Nat)
  | stMember (access typ : Nat) (name : List Nat)
  | methodRec (count methodList : Nat) (name : List Nat)
  | oneMethod (attributes typ : Nat) (vbaseOffset : Int) (name : List Nat)
  | nestedType (typ : Nat) (name : List Nat)
  | baseClass (access typ offset : Nat)
  | virtualBaseClass (access baseType vbptrType vbptrOffset vbtableIndex : Nat)
  | enumerate (access value : Nat) (name : List Nat)
  | vfuncTab (typ : Nat)
  deriving DecidableEq, Repr

/-- `parseMemberField` (LF_MEMBER): on a read failure the reader stays at the
failure point (Go reads do not advance on error) and no member is produced. -/
def parseMemberField (r : Strm.Reader) : Option FieldListMember × Strm.Reader :=
  match Strm.readU16 r with
  | .error _ => (none, r)
  | .ok (attrs, r1) =>
  match Strm.readU32 r1 with
  | .error _ => (none, r1)
  | .ok (typ, r2) =>
  match Strm.readNumeric r2 with
  | .error _ => (none, r2)
  | .ok (offset, r3) =>
  match Strm.readCString r3 with
  | .error _ => (none, r3)
  | .ok (name, r4) => (some (.member (attrs &&& 0x03) typ offset name), r4)

/-- `parseStaticMemberField` (LF_STMEMBER). -/
def parseStaticMemberField (r : Strm.Reader) : Option FieldListMember × Strm.Reader :=
  match Strm.readU16 r with
  | .error _ => (none, r)
  | .ok (attrs, r1) =>
  match Strm.readU32 r1 with
  | .error _ => (none, r1)
  | .ok (typ, r2) =>
  match Strm.readCString r2 with
  | .error _ => (none, r2)
  | .ok (name, r3) => (some (.stMember (attrs &&& 0x03) typ name), r3)

/-- `parseMethodField` (LF_METHOD). -/
def parseMethodField (r : Strm.Reader) : Option FieldListMember × Strm.Reader :=
  match Strm.readU16 r with
  | .error _ => (none, r)
  | .ok (count, r1) =>
  match Strm.readU32 r1 with
  | .error _ => (none, r1)
  | .ok (methodList, r2) =>
  match Strm.readCString r2 with
  | .error _ => (none, r2)
  | .ok (name, r3) => (some (.methodRec count methodList name), r3)

/-- `parseOneMethodField` (LF_ONEMETHOD): intro-virtual methods carry an
extra i32 vbase offset. -/
def parseOneMethodField (r : Strm.Reader) : Option FieldListMember × Strm.Reader :=
  match Strm.readU16 r with
  | .error _ => (none, r)
  | .ok (attrs, r1) =>
  match Strm.readU32 r1 with
  | .error _ => (none, r1)
  | .ok (typ, r2) =>
    if (attrs >>> 2) &&& 0x07 = 0x04 ∨ (attrs >>> 2) &&& 0x07 = 0x06 then
      match Strm.readI32 r2 with
      | .error _ => (none, r2)
      | .ok (vbase, r3) =>
      match Strm.readCString r3 with
      | .error _ => (none, r3)
      | .ok (name, r4) => (some (.oneMethod attrs typ vbase name), r4)
    else
      match Strm.readCString r2 with
      | .error _ => (none, r2)
      | .ok (name, r3) => (some (.oneMethod attrs typ 0 name), r3)

/-- `parseNestedTypeField` (LF_NESTTYPE): u16 padding, u32 type, name. -/
def parseNestedTypeField (r : Strm.Reader) : Option FieldListMember × Strm.Reader :=
  match Strm.readU16 r with
  | .error _ => (none, r)
  | .ok (_, r1) =>
  match Strm.readU32 r1 with
  | .error _ => (none, r1)
  | .ok (typ, r2) =>
  match Strm.readCString r2 with
  | .error _ => (none, r2)
  | .ok (name, r3) => (some (.nestedType typ name), r3)

/-- `parseBaseClassField` (LF_BCLASS). -/
def parseBaseClassField (r : Strm.Reader) : Option FieldListMember × Strm.Reader :=
  match Strm.readU16 r with
  | .error _ => (none, r)
  | .ok (attrs, r1) =>
  match Strm.readU32 r1 with
  | .error _ => (none, r1)
  | .ok (typ, r2) =>
  match Strm.readNumeric r2 with
  | .error _ => (none, r2)
  | .ok (offset, r3) => (some (.baseClass (attrs &&& 0x03) typ offset), r3)

/-- `parseVirtualBaseClassField` (LF_VBCLASS / LF_IVBCLASS). -/
def parseVirtualBaseClassField (r : Strm.Reader) : Option FieldListMember × Strm.Reader :=
  match Strm.readU16 r with
  | .error _ => (none, r)
  | .ok (attrs, r1) =>
  match Strm.readU32 r1 with
  | .error _ => (none, r1)
  | .ok (baseType, r2) =>
  match Strm.readU32 r2 with
  | .error _ => (none, r2)
  | .ok (vbptrType, r3) =>
  match Strm.readNumeric r3 with
  | .error _ => (none, r3)
  | .ok (vbptrOffset, r4) =>
  match Strm.readNumeric r4 with
  | .error _ => (none, r4)
  | .ok (vbtableIndex, r5) =>
    (some (.virtualBaseClass (attrs &&& 0x03) baseType vbptrType vbptrOffset vbtableIndex), r5)

/-- `parseEnumerateField` (LF_ENUMERATE). -/
def parseEnumerateField (r : Strm.Reader) : Option FieldListMember × Strm.Reader :=
  match Strm.readU16 r with
  | .error _ => (none, r)
  | .ok (attrs, r1) =>
  match Strm.readNumeric r1 with
  | .error _ => (none, r1)
  | .ok (value, r2) =>
  match Strm.readCString r2 with
  | .error _ => (none, r2)
  | .ok (name, r3) => (some (.enumerate (attrs &&& 0x03) value name), r3)

/-- `parseVFuncTabField` (LF_VFUNCTAB): u16 padding, u32 type. -/
def parseVFuncTabField (r : Strm.Reader) : Option FieldListMember × Strm.Reader :=
  match Strm.readU16 r with
  | .error _ => (none, r)
  | .ok (_, r1) =>
  match Strm.readU32 r1 with
  | .error _ => (none, r1)
  | .ok (typ, r2) => (some (.vfuncTab typ), r2)

/-- `parseFieldListMember` dispatch (errors and unknown kinds both yield no
member; the outer loop continues either way). -/
def parseFieldListMember (kind : Nat) (r : Strm.Reader) :
    Option FieldListMember × Strm.Reader :=
  if kind = LF_MEMBER then parseMemberField r
  else if kind = LF_STMEMBER then parseStaticMemberField r
  else if kind = LF_METHOD then parseMethodField r
  else if kind = LF_ONEMETHOD then parseOneMethodField r
  else if kind = LF_NESTTYPE then parseNestedTypeField r
  else if kind = LF_BCLASS then parseBaseClassField r
  else if kind = LF_VBCLASS ∨ kind = LF_IVBCLASS then parseVirtualBaseClassField r
  else if kind = LF_ENUMERATE then parseEnumerateField r
  else if kind = LF_VFUNCTAB then parseVFuncTabField r
  else if kind = LF_INDEX then
    match Strm.readU32 r with
    | .error _ => (none, r)
    | .ok (_, r1) => (none, r1)
  else (none, r)

/-- The padding-skip inner loop of `ParseFieldListRecord`: consume bytes with
value `≥ 0xF0`.  Fuel `d.length + 1` always suffices (one byte per step). -/
def skipPaddingGo (d : List Nat) : Nat → Nat → Nat
  | 0, off => off
  | fuel + 1, off =>
    if d.length ≤ off then off
    else if byteAt d off < 0xF0 then off
    else skipPaddingGo d fuel (off + 1)

/-- The member loop of `ParseFieldListRecord`: skip padding, stop when fewer
than two bytes remain, read the 16-bit kind, dispatch, continue from wherever
the member parser left the reader.  Fuel `d.length + 1` always suffices since
every continuing iteration consumes the two kind bytes. -/
def parseFieldListGo (d : List Nat) : Nat → Nat → List FieldListMember
  | 0, _ => []
  | fuel + 1, off =>
    if (Strm.Reader.remaining ⟨d, off⟩) = 0 then []
    else
      let off1 := skipPaddingGo d (d.length + 1) off
      if Strm.Reader.remaining ⟨d, off1⟩ < 2 then []
      else
        match Strm.readU16 ⟨d, off1⟩ with
        | .error _ => []
        | .ok (kind, r1) =>
          match parseFieldListMember kind r1 with
          | (some m, r2) => m :: parseFieldListGo d fuel r2.offset
          | (none, r2) => parseFieldListGo d fuel r2.offset

/-- `ParseFieldListRecord`: the ordered member list (the Go function never
returns an error). -/
def parseFieldListRecord (d : List Nat) : List FieldListMember :=
  parseFieldListGo d (d.length + 1) 0

end Tpi

/-! ## pdb: the type table (member index, inheritance BFS, GetMembers) -/

namespace Pdb

/-- Byte contents of a Go string literal. -/
def strBytes (s : String) : List Nat := s.data.map Char.toNat

/-- `tpi.MemberAccess.String()`. -/
def accessString (a : Nat) : List Nat :=
  if a = 1 then strBytes "private"
  else if a = 2 then strBytes "protected"
  else if a = 3 then strBytes "public"
  else []

/-- `pdb.Member`. -/
structure Member where
  name : List Nat
  type : Nat
  offset : Nat
  access : List Nat
  ownerType : Nat
  ownerName : List Nat
  isStatic : Bool
  deriving DecidableEq, Repr

/-- Errors of the type-table paths embedded here. -/
inductive PdbErr where
  | typeNotFound
  | parseError (e : Strm.RErr)
  deriving DecidableEq, Repr

/-- The member-collection part of `GetMembers` once the owner's name and
field-list index are known: `LF_MEMBER` entries keep their decoded offset,
`LF_STMEMBER` entries get offset 0; neither constructor sets `IsStatic`, so
it stays at Go's zero value `false`. -/
def getMembersFrom (store : Nat → Option Tpi.TypeRecord) (typeIndex : Nat)
    (ownerName : List Nat) (fieldListIndex : Nat) : Except PdbErr (List Member) :=
  if fieldListIndex = 0 then .ok []
  else
    match store fieldListIndex with
    | none => .ok []
    | some fieldRecord =>
      if fieldRecord.kind ≠ Tpi.LF_FIELDLIST then .ok []
      else .ok ((Tpi.parseFieldListRecord fieldRecord.data).filterMap fun m =>
        match m with
        | .member a t off n =>
          some ⟨n, t, off, accessString a, typeIndex, ownerName, false⟩
        | .stMember a t n =>
          some ⟨n, t, 0, accessString a, typeIndex, ownerName, false⟩
        | _ => none)

/-- `TypeTable.GetMembers`: dispatch on the record kind of `typeIndex`
(class/struct/union), then collect the data members of its field list. -/
def getMembers (store : Nat → Option Tpi.TypeRecord) (typeIndex : Nat) :
    Except PdbErr (List Member) :=
  match store typeIndex with
  | none => .error .typeNotFound
  | some record =>
    if record.kind = Tpi.LF_CLASS ∨ record.kind = Tpi.LF_CLASS_ST ∨
        record.kind = Tpi.LF_STRUCTURE ∨ record.kind = Tpi.LF_STRUCTURE_ST then
      match Tpi.parseClassRecord record.data with
      | .error e => .error (.parseError e)
      | .ok rec => getMembersFrom store typeIndex rec.name rec.fieldList
    else if record.kind = Tpi.LF_UNION ∨ record.kind = Tpi.LF_UNION_ST then
      match Tpi.parseUnionRecord record.data with
      | .error e => .error (.parseError e)
      | .ok rec => getMembersFrom store typeIndex rec.name rec.fieldList
    else .error .typeNotFound

/-- A pending class collected by `buildMemberIndex`'s first pass. -/
structure ClassInfo where
  name : List Nat
  fieldListIndex : Nat
  typeIndex : Nat
  deriving DecidableEq, Repr

/-- First pass of `buildMemberIndex` over the user type indices: record each
class/struct/union's name, and remember non-forward-ref classes with a
non-zero field list. -/
def scanTypes (store : Nat → Option Tpi.TypeRecord) :
    List Nat → List (Nat × List Nat) × List ClassInfo
  | [] => ([], [])
  | ti :: rest =>
    match store ti with
    | none => scanTypes store rest
    | some record =>
      if record.kind = Tpi.LF_CLASS ∨ record.kind = Tpi.LF_CLASS_ST ∨
          record.kind = Tpi.LF_STRUCTURE ∨ record.kind = Tpi.LF_STRUCTURE_ST then
        match Tpi.parseClassRecord record.data with
        | .error _ => scanTypes store rest
        | .ok rec =>
          let (names, classes) := scanTypes store rest
          ((ti, rec.name) :: names,
            if ¬ Tpi.isForwardRef rec.properties ∧ rec.fieldList ≠ 0 then
              ⟨rec.name, rec.fieldList, ti⟩ :: classes
            else classes)
      else if record.kind = Tpi.LF_UNION ∨ record.kind = Tpi.LF_UNION_ST then
        match Tpi.parseUnionRecord record.data with
        | .error _ => scanTypes store rest
        | .ok rec =>
          let (names, classes) := scanTypes store rest
          ((ti, rec.name) :: names,
            if ¬ Tpi.isForwardRef rec.properties ∧ rec.fieldList ≠ 0 then
              ⟨rec.name, rec.fieldList, ti⟩ :: classes
            else classes)
      else scanTypes store rest

/-- The member (if any) that `buildMemberIndex` inserts for one field-list
entry of a pending class: `LF_MEMBER` with its offset, `LF_STMEMBER` with
offset 0 and `IsStatic = true`. -/
def indexMemberOf (cls : ClassInfo) : Tpi.FieldListMember → Option Member
  | .member a t off n => some ⟨n, t, off, accessString a, cls.typeIndex, cls.name, false⟩
  | .stMember a t n => some ⟨n, t, 0, accessString a, cls.typeIndex, cls.name, true⟩
  | _ => none

/-- The inheritance edge (owner name, base name) that `buildMemberIndex`
records for one field-list entry: `LF_BCLASS` uses the base's type index,
`LF_VBCLASS`/`LF_IVBCLASS` the virtual base's; the edge is dropped when the
type-name map has no (non-empty) name for that index. -/
def indexEdgeOf (typeNames : List (Nat × List Nat)) (cls : ClassInfo) :
    Tpi.FieldListMember → Option (List Nat × List Nat)
  | .baseClass _ t _ =>
    match typeNames.lookup t with
    | some baseName => if baseName ≠ [] then some (cls.name, baseName) else none
    | none => none
  | .virtualBaseClass _ bt _ _ _ =>
    match typeNames.lookup bt with
    | some baseName => if baseName ≠ [] then some (cls.name, baseName) else none
    | none => none
  | _ => none

/-- The decoded field list of a pending class (empty when the field-list
record is missing or not an `LF_FIELDLIST`). -/
def classFieldList (store : Nat → Option Tpi.TypeRecord) (cls : ClassInfo) :
    List Tpi.FieldListMember :=
  match store cls.fieldListIndex with
  | none => []
  | some fieldRecord =>
    if fieldRecord.kind ≠ Tpi.LF_FIELDLIST then []
    else Tpi.parseFieldListRecord fieldRecord.data

/-- All members inserted by `buildMemberIndex`, in insertion order. -/
def indexedMembers (store : Nat → Option Tpi.TypeRecord) (beginTi endTi : Nat) :
    List Member :=
  ((scanTypes store (List.range' beginTi (endTi - beginTi))).2).flatMap fun cls =>
    (classFieldList store cls).filterMap (indexMemberOf cls)

/-- All inheritance edges (owner name, base name) recorded by
`buildMemberIndex`, in insertion order. -/
def inheritEdges (store : Nat → Option Tpi.TypeRecord) (beginTi endTi : Nat) :
    List (List Nat × List Nat) :=
  ((scanTypes store (List.range' beginTi (endTi - beginTi))).2).flatMap fun cls =>
    (classFieldList store cls).filterMap
      (indexEdgeOf (scanTypes store (List.range' beginTi (endTi - beginTi))).1 cls)

/-- `memberIndex.byName[n]`: the indexed members named `n`, in insertion
order. -/
def byName (store : Nat → Option Tpi.TypeRecord) (beginTi endTi : Nat)
    (n : List Nat) : List Member :=
  (indexedMembers store beginTi endTi).filter fun m => m.name = n

/-- The qualified-name key `OwnerName ++ "::" ++ Name`. -/
def qualKey (m : Member) : List Nat := m.ownerName ++ strBytes "::" ++ m.name

/-- `memberIndex.byQualifiedName[q]`. -/
def byQualifiedName (store : Nat → Option Tpi.TypeRecord) (beginTi endTi : Nat)
    (q : List Nat) : List Member :=
  (indexedMembers store beginTi endTi).filter fun m => qualKey m = q

/-- `memberIndex.inheritance[c]`: the recorded base-class names of `c`. -/
def inheritanceOf (edges : List (List Nat × List Nat)) (c : List Nat) :
    List (List Nat) :=
  (edges.filter fun e => e.1 = c).map (·.2)

/-- The inner loop of `getInheritanceChain`: push each unvisited base. -/
def processBases :
    List (List Nat) → List (List Nat) → List (List Nat) → List (List Nat) →
      List (List Nat) × List (List Nat) × List (List Nat)
  | [], visited, result, queue => (visited, result, queue)
  | b :: bs, visited, result, queue =>
    if b ∈ visited then processBases bs visited result queue
    else processBases bs (b :: visited) (result ++ [b]) (queue ++ [b])

/-- The BFS loop of `getInheritanceChain`.  Fuel bounds the iteration count;
`edges.length + 2` always suffices because every queue element was pushed at
most once (guarded by `visited`) and pushes other than the seed consume an
edge target. -/
def bfsGo (inh : List Nat → List (List Nat)) :
    Nat → List (List Nat) → List (List Nat) → List (List Nat) → List (List Nat)
  | 0, _, result, _ => result
  | fuel + 1, visited, result, queue =>
    match queue with
    | [] => result
    | current :: rest =>
      let s := processBases (inh current) visited result rest
      bfsGo inh fuel s.1 s.2.1 s.2.2

/-- `TypeTable.getInheritanceChain`: BFS from `className` over the recorded
base-class edges, starting result `[className]`. -/
def getInheritanceChain (edges : List (List Nat × List Nat)) (className : List Nat) :
    List (List Nat) :=
  bfsGo (inheritanceOf edges) (edges.length + 2) [className] [className] [className]

/-- `strings.Index(name, "::")`: position of the first occurrence. -/
def indexOfColons : List Nat → Option Nat
  | [] => none
  | [_] => none
  | a :: b :: rest =>
    if a = 58 ∧ b = 58 then some 0
    else (indexOfColons (b :: rest)).map (· + 1)

/-- The `seen`-map filter of `FindMembers`' qualified search: keep each
member whose key has not been seen, threading the seen set. -/
def dedupSeenWith (key : Member → List Nat) :
    List Member → List (List Nat) → List Member × List (List Nat)
  | [], seen => ([], seen)
  | m :: ms, seen =>
    if key m ∈ seen then dedupSeenWith key ms seen
    else
      let s := dedupSeenWith key ms (key m :: seen)
      (m :: s.1, s.2)

/-- The class loop of `FindMembers`' qualified search: for each class of the
inheritance chain, yield its not-yet-seen `byQualifiedName` matches. -/
def findMembersLoop (lookup : List Nat → List Member) (memberName : List Nat) :
    List (List Nat) → List (List Nat) → List Member
  | [], _ => []
  | cls :: classes, seen =>
    let s := dedupSeenWith qualKey (lookup (cls ++ strBytes "::" ++ memberName)) seen
    s.1 ++ findMembersLoop lookup memberName classes s.2

/-- `TypeTable.FindMembers`: a qualified name `Class::member` (first `::` at a
positive index) triggers the inheritance BFS and the deduplicated qualified
lookup; otherwise a simple-name lookup with no traversal. -/
def findMembers (store : Nat → Option Tpi.TypeRecord) (beginTi endTi : Nat)
    (name : List Nat) : List Member :=
  match indexOfColons name with
  | some idx =>
    if 0 < idx then
      findMembersLoop (byQualifiedName store beginTi endTi) (name.drop (idx + 2))
        (getInheritanceChain (inheritEdges store beginTi endTi) (name.take idx)) []
    else byName store beginTi endTi name
  | none => byName store beginTi endTi name

end Pdb

/-! ## internal/demangle: error policy of `Demangle` / `DemangleSimple` -/

namespace Dem

/-- The demangler's typed errors. -/
inductive DError where
  | emptyInput
  | invalidMangled
  | unexpectedEnd
  | invalidBackref
  | unknownOperator
  | unknownType
  deriving DecidableEq, Repr

/-- `Demangle`, parameterised by the recursive-descent parser `parse` (the
composition of `demangler.parse` and `Node.String()`; quantifying over it
makes the wrapper's error policy hold for every possible parse outcome).
Returns Go's `(string, error)` pair. -/
def demangle (parse : List Char → Except DError (List Char)) (decorated : List Char) :
    List Char × Option DError :=
  match decorated with
  | [] => ([], some .emptyInput)
  | c :: rest =>
    if c ≠ '?' then
      (if c = '_' then rest else decorated, none)
    else
      match parse decorated with
      | .error e => (decorated, some e)
      | .ok s => (s, none)

/-- `DemangleSimple`: swallow the error, returning the original string. -/
def demangleSimple (parse : List Char → Except DError (List Char))
    (decorated : List Char) : List Char :=
  match demangle parse decorated with
  | (_, some _) => decorated
  | (result, none) => result

end Dem

/-! ## Spec-side definitions (used to state the claims) -/

/-- The spec-side block-size condition: a power of two between 512 and 65536. -/
def blockSizeOk (bs : Nat) : Prop :=
  (∃ k, bs = 2 ^ k) ∧ 512 ≤ bs ∧ bs ≤ 65536

/-- Spec-side reflexive-transitive reachability along recorded inheritance
edges, used to characterise the inheritance BFS of `FindMembers`. -/
inductive InheritReaches (edges : List (List Nat × List Nat)) :
    List Nat → List Nat → Prop where
  | refl (c : List Nat) : InheritReaches edges c c
  | step {a b c : List Nat} : InheritReaches edges a b → (b, c) ∈ edges →
      InheritReaches edges a c

/-! ## Supporting lemmas -/

/-- `bs &&& (bs - 1) = 0` characterises powers of two among positive numbers
(the check used by `SuperBlock.Validate`). -/
lemma land_pred_eq_zero_iff (bs : Nat) (h : 0 < bs) :
    bs &&& (bs - 1) = 0 ↔ ∃ k, bs = 2 ^ k := by
  constructor
  · intro H
    induction bs using Nat.strong_induction_on with
    | _ bs ih =>
      rcases Nat.even_or_odd bs with he | ho
      · obtain ⟨m, hm⟩ := he
        have hm2 : bs = 2 * m := by omega
        have hmpos : 0 < m := by omega
        subst hm2
        have hsub : 2 * m - 1 = 2 * (m - 1) + 1 := by omega
        have hland : 2 * m &&& (2 * m - 1) = Nat.bit false (m &&& (m - 1)) := by
          rw [hsub]
          have := Nat.land_bit false m true (m - 1)
          simpa [Nat.bit_false, Nat.bit_true] using this
        rw [hland] at H
        simp [Nat.bit_false] at H
        obtain ⟨k, hk⟩ := ih m (by omega) hmpos H
        exact ⟨k + 1, by rw [hk]; ring⟩
      · obtain ⟨m, hm⟩ := ho
        subst hm
        have hsub : 2 * m + 1 - 1 = 2 * m := by omega
        have hland : 2 * m + 1 &&& (2 * m + 1 - 1) = Nat.bit false (m &&& m) := by
          rw [hsub]
          have := Nat.land_bit true m false m
          simpa [Nat.bit_false, Nat.bit_true] using this
        rw [hland] at H
        simp [Nat.bit_false] at H
        exact ⟨0, by omega⟩
  · rintro ⟨k, rfl⟩
    apply Nat.eq_of_testBit_eq
    intro i
    rw [Nat.testBit_land]
    simp [Nat.testBit_two_pow, Nat.testBit_two_pow_sub_one]
    omega

/-- `blockSizeOk` matches the pair of checks performed by `Validate`. -/
lemma blockSizeOk_iff (bs : Nat) :
    blockSizeOk bs ↔ ¬(bs < 512 ∨ 65536 < bs) ∧ bs &&& (bs - 1) = 0 := by
  constructor
  · rintro ⟨⟨k, rfl⟩, hlo, hhi⟩
    exact ⟨by omega, (land_pred_eq_zero_iff _ (by positivity)).2 ⟨k, rfl⟩⟩
  · rintro ⟨hrange, hland⟩
    push_neg at hrange
    obtain ⟨k, hk⟩ := (land_pred_eq_zero_iff _ (by omega)).1 hland
    exact ⟨⟨k, hk⟩, hrange.1, hrange.2⟩

lemma validate_invalidMagic (sb : Msf.SuperBlock) (hm : sb.fileMagic ≠ Msf.magic) :
    Msf.validate sb = some .invalidMagic := by
  unfold Msf.validate
  rw [if_pos hm]

lemma validate_invalidBlockSize (sb : Msf.SuperBlock) (hm : sb.fileMagic = Msf.magic)
    (hb : ¬ blockSizeOk sb.blockSize) :
    Msf.validate sb = some .invalidBlockSize := by
  unfold Msf.validate
  rw [if_neg (by simp [hm])]
  rw [blockSizeOk_iff] at hb
  push_neg at hb
  by_cases hr : sb.blockSize < 512 ∨ 65536 < sb.blockSize
  · rw [if_pos hr]
  · rw [if_neg hr, if_pos (hb ⟨by omega, by omega⟩)]

lemma validate_invalidFpm (sb : Msf.SuperBlock) (hm : sb.fileMagic = Msf.magic)
    (hb : blockSizeOk sb.blockSize)
    (hf : ¬(sb.freeBlockMapBlock = 1 ∨ sb.freeBlockMapBlock = 2)) :
    Msf.validate sb = some .invalidFpmBlock := by
  obtain ⟨hr, hl⟩ := (blockSizeOk_iff _).1 hb
  push_neg at hf
  unfold Msf.validate
  rw [if_neg (by simp [hm]), if_neg hr, if_neg (by simpa using hl), if_pos ⟨hf.1, hf.2⟩]

lemma validate_ok (sb : Msf.SuperBlock) (hm : sb.fileMagic = Msf.magic)
    (hb : blockSizeOk sb.blockSize)
    (hf : sb.freeBlockMapBlock = 1 ∨ sb.freeBlockMapBlock = 2) :
    Msf.validate sb = none := by
  obtain ⟨hr, hl⟩ := (blockSizeOk_iff _).1 hb
  unfold Msf.validate
  rw [if_neg (by simp [hm]), if_neg hr, if_neg (by simpa using hl), if_neg (by tauto)]

/-- Field/framing content of a successful `ParseSymbolRecord`. -/
lemma parseSymbolRecord_ok {d : List Nat} {rec : Sym.SymbolRecord} {size : Nat}
    (h : Sym.parseSymbolRecord d = .ok (rec, size)) :
    size = (Strm.byteAt d 0 + 256 * Strm.byteAt d 1) + 2 ∧
    4 ≤ size ∧ size ≤ d.length ∧
    rec.kind = Strm.byteAt d 2 + 256 * Strm.byteAt d 3 ∧
    rec.data = (d.drop 4).take (size - 4) := by
  unfold Sym.parseSymbolRecord at h
  by_cases h1 : d.length < 4
  · rw [if_pos h1] at h
    cases h
  rw [if_neg h1] at h
  by_cases h2 : d.length < (Strm.byteAt d 0 + 256 * Strm.byteAt d 1) + 2
  · rw [if_pos h2] at h
    cases h
  rw [if_neg h2] at h
  by_cases h3 : Strm.byteAt d 0 + 256 * Strm.byteAt d 1 < 2
  · rw [if_pos h3] at h
    cases h
  rw [if_neg h3] at h
  simp only [Except.ok.injEq, Prod.mk.injEq] at h
  obtain ⟨hrec, hsize⟩ := h
  subst hrec
  refine ⟨by omega, by omega, by omega, rfl, ?_⟩
  simp only
  congr 1
  omega

/-- A successful parse depends for its framing (success, size, kind) only on
the input's length and first four bytes. -/
lemma parseSymbolRecord_framing {d₁ d₂ : List Nat} (hlen : d₁.length = d₂.length)
    (hhdr : d₁.take 4 = d₂.take 4) {rec : Sym.SymbolRecord} {size : Nat}
    (h : Sym.parseSymbolRecord d₁ = .ok (rec, size)) :
    ∃ rec₂, Sym.parseSymbolRecord d₂ = .ok (rec₂, size) ∧ rec₂.kind = rec.kind := by
  have hb : ∀ i, i < 4 → Strm.byteAt d₁ i = Strm.byteAt d₂ i := by
    intro i hi
    unfold Strm.byteAt
    have h1 : d₁.getD i 0 = (d₁.take 4).getD i 0 := by
      unfold List.getD
      rw [List.get?_eq_getElem?, List.get?_eq_getElem?,
        List.getElem?_take_of_lt hi]
    have h2 : d₂.getD i 0 = (d₂.take 4).getD i 0 := by
      unfold List.getD
      rw [List.get?_eq_getElem?, List.get?_eq_getElem?,
        List.getElem?_take_of_lt hi]
    rw [h1, h2, hhdr]
  obtain ⟨hsz, hge, hle, hkind, -⟩ := parseSymbolRecord_ok h
  unfold Sym.parseSymbolRecord at h ⊢
  rw [← hlen, ← hb 0 (by norm_num), ← hb 1 (by norm_num), ← hb 2 (by norm_num),
    ← hb 3 (by norm_num)]
  by_cases h1 : d₁.length < 4
  · rw [if_pos h1] at h
    cases h
  rw [if_neg h1] at h ⊢
  by_cases h2 : d₁.length < (Strm.byteAt d₁ 0 + 256 * Strm.byteAt d₁ 1) + 2
  · rw [if_pos h2] at h
    cases h
  rw [if_neg h2] at h ⊢
  by_cases h3 : Strm.byteAt d₁ 0 + 256 * Strm.byteAt d₁ 1 < 2
  · rw [if_pos h3] at h
    cases h
  rw [if_neg h3] at h ⊢
  simp only [Except.ok.injEq, Prod.mk.injEq] at h
  obtain ⟨hrec, hsize⟩ := h
  exact ⟨_, by rw [hsize], by rw [← hrec]⟩

/-- Fuel-irrelevance for the record-scan loop: any fuel exceeding the number
of bytes after the cursor gives the same result. -/
lemma scanGo_congr (d : List Nat) :
    ∀ f₁ f₂ offset, d.length - offset < f₁ → d.length - offset < f₂ →
      Sym.scanGo d f₁ offset = Sym.scanGo d f₂ offset := by
  intro f₁
  induction f₁ with
  | zero => intro f₂ offset h₁; omega
  | succ f₁ ih =>
    intro f₂ offset h₁ h₂
    match f₂, h₂ with
    | f₂ + 1, h₂ =>
      show Sym.scanGo d (f₁ + 1) offset = Sym.scanGo d (f₂ + 1) offset
      unfold Sym.scanGo
      by_cases hc : offset < d.length - 4
      · rw [if_pos hc, if_pos hc]
        rcases hp : Sym.parseSymbolRecord (d.drop offset) with e | ⟨rec, size⟩
        · rfl
        · obtain ⟨-, hge, hle, -, -⟩ := parseSymbolRecord_ok hp
          have hdl : (d.drop offset).length = d.length - offset := by
            simp
          show (offset, rec, size) :: Sym.scanGo d f₁ (offset + size) =
            (offset, rec, size) :: Sym.scanGo d f₂ (offset + size)
          rw [ih f₂ (offset + size) (by omega) (by omega)]
      · rw [if_neg hc, if_neg hc]

/-- One-step unfolding of `scanFrom`. -/
lemma scanFrom_unfold (d : List Nat) (offset : Nat) :
    Sym.scanFrom d offset =
      if offset < d.length - 4 then
        match Sym.parseSymbolRecord (d.drop offset) with
        | .error _ => []
        | .ok (rec, size) => (offset, rec, size) :: Sym.scanFrom d (offset + size)
      else [] := by
  unfold Sym.scanFrom
  rw [show Sym.scanGo d (d.length + 1) offset =
      if offset < d.length - 4 then
        match Sym.parseSymbolRecord (d.drop offset) with
        | .error _ => []
        | .ok (rec, size) => (offset, rec, size) :: Sym.scanGo d d.length (offset + size)
      else [] from rfl]
  by_cases hc : offset < d.length - 4
  · rw [if_pos hc, if_pos hc]
    rcases hp : Sym.parseSymbolRecord (d.drop offset) with e | ⟨rec, size⟩
    · rfl
    · obtain ⟨-, hge, hle, -, -⟩ := parseSymbolRecord_ok hp
      have hdl : (d.drop offset).length = d.length - offset := by
        simp
      show (offset, rec, size) :: Sym.scanGo d d.length (offset + size) =
        (offset, rec, size) :: Sym.scanGo d (d.length + 1) (offset + size)
      rw [scanGo_congr d d.length (d.length + 1) (offset + size) (by omega) (by omega)]
  · rw [if_neg hc, if_neg hc]

/-- Soundness of the scan: every visited triple is a successful parse at its
offset, at or after the start. -/
lemma scan_mem (d : List Nat) :
    ∀ n offset, d.length - offset ≤ n →
      ∀ off rec size, (off, rec, size) ∈ Sym.scanFrom d offset →
        Sym.parseSymbolRecord (d.drop off) = .ok (rec, size) ∧ offset ≤ off := by
  intro n
  induction n with
  | zero =>
    intro offset h off rec size hmem
    rw [scanFrom_unfold] at hmem
    rw [if_neg (by omega)] at hmem
    cases hmem
  | succ n ih =>
    intro offset h off rec size hmem
    rw [scanFrom_unfold] at hmem
    by_cases hc : offset < d.length - 4
    · rw [if_pos hc] at hmem
      rcases hp : Sym.parseSymbolRecord (d.drop offset) with e | ⟨rec₀, size₀⟩
      · rw [hp] at hmem
        cases hmem
      · rw [hp] at hmem
        rcases List.mem_cons.1 hmem with heq | htail
        · cases heq
          exact ⟨hp, le_refl _⟩
        · obtain ⟨-, hge, hle, -, -⟩ := parseSymbolRecord_ok hp
          have hdl : (d.drop offset).length = d.length - offset := by
            simp
          obtain ⟨hparse, hle'⟩ := ih (offset + size₀) (by omega) off rec size htail
          exact ⟨hparse, by omega⟩
    · rw [if_neg hc] at hmem
      cases hmem

/-- The scan depends only on the length and the suffix after the cursor. -/
lemma scan_ext (d₁ d₂ : List Nat) (hlen : d₁.length = d₂.length) :
    ∀ n offset, d₁.length - offset ≤ n → d₁.drop offset = d₂.drop offset →
      Sym.scanFrom d₁ offset = Sym.scanFrom d₂ offset := by
  intro n
  induction n with
  | zero =>
    intro offset h hd
    rw [scanFrom_unfold, scanFrom_unfold, if_neg (by omega), if_neg (by omega)]
  | succ n ih =>
    intro offset h hd
    rw [scanFrom_unfold, scanFrom_unfold, ← hlen, ← hd]
    by_cases hc : offset < d₁.length - 4
    · rw [if_pos hc, if_pos hc]
      rcases hp : Sym.parseSymbolRecord (d₁.drop offset) with e | ⟨rec, size⟩
      · rfl
      · obtain ⟨-, hge, hle, -, -⟩ := parseSymbolRecord_ok hp
        have hdl : (d₁.drop offset).length = d₁.length - offset := by
          simp
        show (offset, rec, size) :: Sym.scanFrom d₁ (offset + size) =
          (offset, rec, size) :: Sym.scanFrom d₂ (offset + size)
        rw [ih (offset + size) (by omega)
          (by rw [← List.drop_drop, ← List.drop_drop, hd])]
    · rw [if_neg hc, if_neg hc]

/-- Replacing the payload bytes of a record on the iteration chain does not
change the offsets and sizes visited by the scan (framing is driven by the
length field alone). -/
lemma scan_payload_replace (d : List Nat) (offset size : Nat) (rec : Sym.SymbolRecord)
    (junk : List Nat) (hmem : (offset, rec, size) ∈ Sym.scanRecords d)
    (hjunk : junk.length = size - 4) :
    (Sym.scanRecords (d.take (offset + 4) ++ junk ++ d.drop (offset + size))).map
        (fun t => (t.1, t.2.2)) =
      (Sym.scanRecords d).map (fun t => (t.1, t.2.2)) := by
  set d' := d.take (offset + 4) ++ junk ++ d.drop (offset + size) with hd'
  obtain ⟨hparse, -⟩ := scan_mem d d.length 0 (by omega) offset rec size hmem
  obtain ⟨-, hge, hle, -, -⟩ := parseSymbolRecord_ok hparse
  have hdl : (d.drop offset).length = d.length - offset := by simp
  have hbound : offset + size ≤ d.length := by omega
  have hlen' : d'.length = d.length := by
    simp only [hd', List.length_append, List.length_take, List.length_drop]
    omega
  have htklen : (d.take (offset + 4)).length = offset + 4 := by
    rw [List.length_take]
    omega
  have htake : d'.take (offset + 4) = d.take (offset + 4) := by
    rw [hd', List.append_assoc]
    exact List.take_left' htklen
  have hdrop : d'.drop (offset + size) = d.drop (offset + size) := by
    rw [hd']
    refine List.drop_left' ?_
    rw [List.length_append, htklen, hjunk]
    omega
  have hhdr4 : ∀ start, start + 4 ≤ offset + 4 →
      (d'.drop start).take 4 = (d.drop start).take 4 := by
    intro start hstart
    have e3 : d'.take (start + 4) = d.take (start + 4) := by
      have h' := congrArg (List.take (start + 4)) htake
      rw [List.take_take, List.take_take] at h'
      simpa [Nat.min_eq_left hstart] using h'
    have e1 : (d'.drop start).take 4 = (d'.take (start + 4)).drop start := by
      rw [List.drop_take]
      congr 1
      omega
    have e2 : (d.drop start).take 4 = (d.take (start + 4)).drop start := by
      rw [List.drop_take]
      congr 1
      omega
    rw [e1, e2, e3]
  suffices h : ∀ n start, d.length - start ≤ n →
      (offset, rec, size) ∈ Sym.scanFrom d start →
      (Sym.scanFrom d' start).map (fun t => (t.1, t.2.2)) =
        (Sym.scanFrom d start).map (fun t => (t.1, t.2.2)) by
    exact h d.length 0 (by omega) hmem
  intro n
  induction n with
  | zero =>
    intro start h hsmem
    rw [scanFrom_unfold d, if_neg (by omega)] at hsmem
    cases hsmem
  | succ n ih =>
    intro start h hsmem
    rw [scanFrom_unfold d] at hsmem
    by_cases hc : start < d.length - 4
    · rw [if_pos hc] at hsmem
      rcases hp : Sym.parseSymbolRecord (d.drop start) with e | ⟨rec₀, size₀⟩
      · rw [hp] at hsmem
        cases hsmem
      rw [hp] at hsmem
      obtain ⟨-, hge₀, hle₀, -, -⟩ := parseSymbolRecord_ok hp
      have hdl₀ : (d.drop start).length = d.length - start := by simp
      have hkey : start + size₀ ≤ offset + size ∧ start + 4 ≤ offset + 4 := by
        rcases List.mem_cons.1 hsmem with heq | htail
        · cases heq
          omega
        · obtain ⟨-, hge'⟩ := scan_mem d d.length (start + size₀) (by omega)
            offset rec size htail
          omega
      have hdrops : (d.drop start).length = (d'.drop start).length := by
        simp [hlen']
      obtain ⟨rec₂, hp₂, -⟩ :=
        parseSymbolRecord_framing hdrops (hhdr4 start hkey.2).symm hp
      rw [scanFrom_unfold d', scanFrom_unfold d,
        if_pos (show start < d'.length - 4 by rw [hlen']; exact hc), if_pos hc,
        hp, hp₂]
      show ((start, rec₂, size₀) :: Sym.scanFrom d' (start + size₀)).map
          (fun t => (t.1, t.2.2)) =
        ((start, rec₀, size₀) :: Sym.scanFrom d (start + size₀)).map
          (fun t => (t.1, t.2.2))
      simp only [List.map_cons, List.cons.injEq, true_and]
      rcases List.mem_cons.1 hsmem with heq | htail
      · cases heq
        have := scan_ext d' d hlen' d.length (offset + size) (by omega) hdrop
        rw [this]
      · exact ih (start + size₀) (by omega) htail
    · rw [if_neg hc] at hsmem
      cases hsmem

/-- Walking the bucket of `hash(name)` with exact comparison finds exactly the
exact-name matches of the whole index (entries hash consistently). -/
lemma findByName_eq_filter (d name : List Nat) :
    Sym.findByName d name =
      ((Sym.nameEntries d).filter fun e => e.name = name).map (·.symOffset) := by
  unfold Sym.findByName Sym.bucket
  rw [List.filter_filter]
  congr 1
  apply List.filter_congr
  intro e _
  by_cases he : e.name = name
  · simp [he]
  · simp [he]

/-- Invariant of Go's `sort.Search` loop: the result `r` lies in `[i, j]`,
everything strictly below it (down to the initial `i`) last tested false, and
`r` itself tested true unless `r = j`. -/
lemma sortSearchGo_spec (pred : Nat → Bool) :
    ∀ fuel i j, i ≤ j → j - i ≤ fuel →
      i ≤ Sym.sortSearchGo pred fuel i j ∧ Sym.sortSearchGo pred fuel i j ≤ j ∧
      (Sym.sortSearchGo pred fuel i j = i ∨
        pred (Sym.sortSearchGo pred fuel i j - 1) = false) ∧
      (Sym.sortSearchGo pred fuel i j = j ∨
        pred (Sym.sortSearchGo pred fuel i j) = true) := by
  intro fuel
  induction fuel with
  | zero =>
    intro i j hij hf
    have : i = j := by omega
    subst this
    exact ⟨le_refl _, le_refl _, Or.inl rfl, Or.inl rfl⟩
  | succ fuel ih =>
    intro i j hij hf
    by_cases hlt : i < j
    · have hstep0 : Sym.sortSearchGo pred (fuel + 1) i j =
          (if i < j then
            (if ! pred ((i + j) / 2) then Sym.sortSearchGo pred fuel ((i + j) / 2 + 1) j
             else Sym.sortSearchGo pred fuel i ((i + j) / 2))
           else i) := rfl
      have hstep : Sym.sortSearchGo pred (fuel + 1) i j =
          (if ! pred ((i + j) / 2) then Sym.sortSearchGo pred fuel ((i + j) / 2 + 1) j
           else Sym.sortSearchGo pred fuel i ((i + j) / 2)) := by
        rw [hstep0, if_pos hlt]
      by_cases hp : pred ((i + j) / 2) = true
      · rw [hstep, if_neg (by simp [hp])]
        obtain ⟨h1, h2, h3, h4⟩ := ih i ((i + j) / 2) (by omega) (by omega)
        refine ⟨h1, by omega, h3, ?_⟩
        rcases h4 with h4 | h4
        · rw [h4]
          exact Or.inr hp
        · exact Or.inr h4
      · rw [hstep, if_pos (by simp [hp])]
        obtain ⟨h1, h2, h3, h4⟩ := ih ((i + j) / 2 + 1) j (by omega) (by omega)
        refine ⟨by omega, h2, ?_, h4⟩
        rcases h3 with h3 | h3
        · rw [h3]
          refine Or.inr ?_
          simpa using (Bool.eq_false_iff.2 hp)
        · exact Or.inr h3
    · have : i = j := by omega
      subst this
      have : Sym.sortSearchGo pred (fuel + 1) i i = i := by
        unfold Sym.sortSearchGo
        rw [if_neg (by omega)]
      rw [this]
      exact ⟨le_refl _, le_refl _, Or.inl rfl, Or.inl rfl⟩

/-- The semantic content of `addrLE`. -/
lemma addrLE_iff (a b : Sym.SymbolAddress) :
    Sym.addrLE a b = true ↔
      a.sec < b.sec ∨ (a.sec = b.sec ∧ a.offset ≤ b.offset) := by
  unfold Sym.addrLE
  by_cases h : a.sec = b.sec
  · rw [if_neg (by simp [h])]
    simp [h]
  · rw [if_pos (by simp [h])]
    simp [h]

lemma addrLE_trans (a b c : Sym.SymbolAddress) :
    Sym.addrLE a b = true → Sym.addrLE b c = true → Sym.addrLE a c = true := by
  rw [addrLE_iff, addrLE_iff, addrLE_iff]
  omega

lemma addrLE_total (a b : Sym.SymbolAddress) :
    (Sym.addrLE a b || Sym.addrLE b a) = true := by
  by_cases h : Sym.addrLE a b = true
  · simp [h]
  · have h2 : ¬(a.sec < b.sec ∨ (a.sec = b.sec ∧ a.offset ≤ b.offset)) :=
      fun hc => h ((addrLE_iff a b).2 hc)
    have h' : Sym.addrLE b a = true := by
      rw [addrLE_iff]
      omega
    simp [h']

/-- The sorted order produced by `NewAddressIndex`. -/
lemma addrIndex_sorted (addrMap symData : List Nat) :
    List.Pairwise (fun a b => Sym.addrLE a b = true)
      (Sym.newAddressIndex addrMap symData) :=
  List.sorted_mergeSort addrLE_trans addrLE_total _

lemma addrLE_refl (a : Sym.SymbolAddress) : Sym.addrLE a a = true := by
  rw [addrLE_iff]
  omega

/-- Correctness of `FindByAddress` over a sorted entry list: it returns the
largest entry of the requested section with offset at most the requested
offset, `exact` iff the offset matches exactly, and not-found exactly when no
entry of that section lies at or below the requested offset. -/
lemma findByAddress_spec (entries : List Sym.SymbolAddress)
    (hsort : List.Pairwise (fun a b => Sym.addrLE a b = true) entries)
    (sec offset : Nat) :
    ((∃ e ∈ entries, e.sec = sec ∧ e.offset ≤ offset) →
      ∃ e exact, e ∈ entries ∧ e.sec = sec ∧ e.offset ≤ offset ∧
        Sym.findByAddress entries sec offset = some (e.symOffset, exact) ∧
        (exact = true ↔ e.offset = offset) ∧
        (∀ e' ∈ entries, e'.sec = sec → e'.offset ≤ offset → e'.offset ≤ e.offset))
    ∧ ((¬ ∃ e ∈ entries, e.sec = sec ∧ e.offset ≤ offset) →
      Sym.findByAddress entries sec offset = none) := by
  by_cases hn : entries.length = 0
  · have he : entries = [] := List.length_eq_zero.1 hn
    subst he
    refine ⟨?_, fun _ => rfl⟩
    rintro ⟨e, he, -⟩
    cases he
  · have hfind : Sym.findByAddress entries sec offset =
        Sym.findByAddressAt entries sec offset
          (Sym.sortSearch entries.length (Sym.findPred entries sec offset)) := by
      unfold Sym.findByAddress
      rw [if_neg hn]
    set n := entries.length with hnn
    set pred := Sym.findPred entries sec offset with hpreddef
    set i := Sym.sortSearch n pred with hidef
    have hgo : Sym.sortSearchGo pred n 0 n = i := by
      rw [hidef]
      rfl
    obtain ⟨hi0, hin, hprev, hcur⟩ := sortSearchGo_spec pred n 0 n (by omega) (by omega)
    rw [hgo] at hi0 hin hprev hcur
    have hEeq : ∀ k, ∀ hk : k < n, Sym.entryAt entries k = entries[k] := by
      intro k hk
      unfold Sym.entryAt
      exact List.getD_eq_getElem entries _ hk
    have hEmem : ∀ k, k < n → Sym.entryAt entries k ∈ entries := by
      intro k hk
      rw [hEeq k hk]
      exact List.getElem_mem hk
    have hmono : ∀ k l, k ≤ l → l < n →
        Sym.addrLE (Sym.entryAt entries k) (Sym.entryAt entries l) = true := by
      intro k l hkl hl
      rcases Nat.lt_or_ge k l with h | h
      · rw [hEeq k (by omega), hEeq l hl]
        exact List.pairwise_iff_getElem.1 hsort k l (by omega) hl h
      · have : k = l := by omega
        subst this
        exact addrLE_refl _
    have hpt : ∀ k, pred k = true ↔
        (sec < (Sym.entryAt entries k).sec ∨
          ((Sym.entryAt entries k).sec = sec ∧
            offset ≤ (Sym.entryAt entries k).offset)) := by
      intro k
      rw [hpreddef]
      unfold Sym.findPred
      by_cases hs : (Sym.entryAt entries k).sec = sec
      · rw [if_neg (by simp [hs])]
        simp [hs]
      · rw [if_pos (by simp [hs])]
        simp
        omega
    have hpf : ∀ k, pred k = false ↔
        ((Sym.entryAt entries k).sec < sec ∨
          ((Sym.entryAt entries k).sec = sec ∧
            (Sym.entryAt entries k).offset < offset)) := by
      intro k
      rw [← Bool.not_eq_true, hpt]
      omega
    by_cases hex : i < n ∧ (Sym.entryAt entries i).sec = sec ∧
        (Sym.entryAt entries i).offset = offset
    · have hres : Sym.findByAddress entries sec offset =
          some ((Sym.entryAt entries i).symOffset, true) := by
        rw [hfind]
        unfold Sym.findByAddressAt
        rw [if_pos hex]
      constructor
      · intro _
        refine ⟨Sym.entryAt entries i, true, hEmem i hex.1, hex.2.1,
          le_of_eq hex.2.2, hres, by simp [hex.2.2], ?_⟩
        intro e' he' hs ho
        rw [hex.2.2]
        exact ho
      · intro hno
        exact absurd ⟨Sym.entryAt entries i, hEmem i hex.1, hex.2.1,
          le_of_eq hex.2.2⟩ hno
    · have hconflict : ∀ (e' : Sym.SymbolAddress) k, k < n → i ≤ k →
          Sym.entryAt entries k = e' → e'.sec = sec → e'.offset ≤ offset → False := by
        intro e' k hk hik hke hs ho
        have hin' : i < n := by omega
        have hpi : pred i = true := by
          rcases hcur with h | h
          · omega
          · exact h
        have hm := hmono i k hik hk
        rw [hke, addrLE_iff] at hm
        have hpti := (hpt i).1 hpi
        have hnex : ¬((Sym.entryAt entries i).sec = sec ∧
            (Sym.entryAt entries i).offset = offset) := fun hc => hex ⟨hin', hc⟩
        omega
      by_cases hprev2 : 0 < i ∧ (Sym.entryAt entries (i - 1)).sec = sec
      · have hres : Sym.findByAddress entries sec offset =
            some ((Sym.entryAt entries (i - 1)).symOffset, false) := by
          rw [hfind]
          unfold Sym.findByAddressAt
          rw [if_neg hex, if_pos hprev2]
        have hpf1 : pred (i - 1) = false := by
          rcases hprev with h | h
          · omega
          · exact h
        have hplt : (Sym.entryAt entries (i - 1)).offset < offset := by
          have := (hpf (i - 1)).1 hpf1
          omega
        constructor
        · intro _
          refine ⟨Sym.entryAt entries (i - 1), false, hEmem _ (by omega),
            hprev2.2, by omega, hres, by simp; omega, ?_⟩
          intro e' he' hs ho
          obtain ⟨k, hk, hke⟩ := List.mem_iff_getElem.1 he'
          have hkE : Sym.entryAt entries k = e' := by
            rw [hEeq k hk, hke]
          by_cases hki : k ≤ i - 1
          · have hm := hmono k (i - 1) hki (by omega)
            rw [hkE, addrLE_iff] at hm
            omega
          · exact absurd (hconflict e' k hk (by omega) hkE hs ho) (fun h => h)
        · intro hno
          exact absurd ⟨Sym.entryAt entries (i - 1), hEmem _ (by omega),
            hprev2.2, by omega⟩ hno
      · have hres : Sym.findByAddress entries sec offset = none := by
          rw [hfind]
          unfold Sym.findByAddressAt
          rw [if_neg hex, if_neg hprev2]
        have hnoP : ¬ ∃ e ∈ entries, e.sec = sec ∧ e.offset ≤ offset := by
          rintro ⟨e', he', hs, ho⟩
          obtain ⟨k, hk, hke⟩ := List.mem_iff_getElem.1 he'
          have hkE : Sym.entryAt entries k = e' := by
            rw [hEeq k hk, hke]
          by_cases hki : i ≤ k
          · exact hconflict e' k hk hki hkE hs ho
          · have hi0' : 0 < i := by omega
            have hpf1 : pred (i - 1) = false := by
              rcases hprev with h | h
              · omega
              · exact h
            have hsne : (Sym.entryAt entries (i - 1)).sec ≠ sec := fun hc =>
              hprev2 ⟨hi0', hc⟩
            have hco := (hpf (i - 1)).1 hpf1
            have hm := hmono k (i - 1) (by omega) (by omega)
            rw [hkE, addrLE_iff] at hm
            omega
        exact ⟨fun h => absurd h hnoP, fun _ => hres⟩

/-- Every collected address-index entry comes from an `S_PUB32` record at an
address-map offset, carrying that record's (section, offset). -/
lemma rawAddrEntries_mem {addrMap symData : List Nat} {e : Sym.SymbolAddress}
    (he : e ∈ Sym.rawAddrEntries addrMap symData) :
    e.symOffset ∈ addrMap ∧ ∃ rec size sym,
      Sym.parseSymbolRecord (symData.drop e.symOffset) = .ok (rec, size) ∧
      rec.kind = Sym.S_PUB32 ∧ Sym.parsePublicSym32 rec.data = .ok sym ∧
      e.sec = sym.segment ∧ e.offset = sym.offset := by
  obtain ⟨symOffset, hmem, hsome⟩ := List.mem_filterMap.1 he
  by_cases hlen : symData.length < symOffset + 10
  · rw [if_pos hlen] at hsome
    cases hsome
  rw [if_neg hlen] at hsome
  rcases hp : Sym.parseSymbolRecord (symData.drop symOffset) with er | ⟨rec, sz⟩
  · rw [hp] at hsome
    cases hsome
  rw [hp] at hsome
  by_cases hk : rec.kind ≠ Sym.S_PUB32
  · replace hsome : (if rec.kind ≠ Sym.S_PUB32 then none
      else match Sym.parsePublicSym32 rec.data with
        | .error _ => none
        | .ok sym => some ⟨sym.segment, sym.offset, symOffset⟩) = some e := hsome
    rw [if_pos hk] at hsome
    cases hsome
  replace hsome : (if rec.kind ≠ Sym.S_PUB32 then none
      else match Sym.parsePublicSym32 rec.data with
        | .error _ => none
        | .ok sym => some ⟨sym.segment, sym.offset, symOffset⟩) = some e := hsome
  rw [if_neg hk] at hsome
  rcases hps : Sym.parsePublicSym32 rec.data with er | sym
  · rw [hps] at hsome
    cases hsome
  rw [hps] at hsome
  obtain rfl := Option.some.inj hsome
  exact ⟨hmem, rec, sz, sym, hp, not_not.1 hk, hps, rfl, rfl⟩

/-- A one-edge reachability step. -/
lemma InheritReaches.single {edges : List (List Nat × List Nat)}
    {b c : List Nat} (h : (b, c) ∈ edges) : InheritReaches edges b c :=
  .step (.refl b) h

/-- Reachability is transitive. -/
lemma InheritReaches.trans {edges : List (List Nat × List Nat)}
    {a b c : List Nat} (h1 : InheritReaches edges a b)
    (h2 : InheritReaches edges b c) : InheritReaches edges a c := by
  induction h2 with
  | refl => exact h1
  | step _ e ih => exact .step ih e

/-- Membership in the recorded base list is exactly edge membership. -/
lemma mem_inheritanceOf {edges : List (List Nat × List Nat)} {b c : List Nat} :
    c ∈ Pdb.inheritanceOf edges b ↔ (b, c) ∈ edges := by
  unfold Pdb.inheritanceOf
  constructor
  · intro h
    obtain ⟨e, he, hc⟩ := List.mem_map.1 h
    obtain ⟨hmem, hb⟩ := List.mem_filter.1 he
    have hb' : e.1 = b := by simpa using hb
    have : e = (b, c) := by
      cases e
      simp_all
    rwa [this] at hmem
  · intro h
    exact List.mem_map.2 ⟨(b, c), List.mem_filter.2 ⟨h, by simp⟩, rfl⟩

/-- `processBases bs visited result queue` appends some list `Δ` of fresh,
distinct bases to both `result` and `queue`, marks exactly `Δ` newly visited,
and afterwards every element of `bs` is visited. -/
lemma processBases_spec (bs : List (List Nat)) :
    ∀ visited result queue, ∃ Δ : List (List Nat),
      (∀ x, x ∈ (Pdb.processBases bs visited result queue).1 ↔
        x ∈ visited ∨ x ∈ Δ) ∧
      (Pdb.processBases bs visited result queue).2.1 = result ++ Δ ∧
      (Pdb.processBases bs visited result queue).2.2 = queue ++ Δ ∧
      Δ.Nodup ∧
      (∀ x ∈ Δ, x ∈ bs ∧ x ∉ visited) ∧
      (∀ x ∈ bs, x ∈ (Pdb.processBases bs visited result queue).1) := by
  induction bs with
  | nil =>
    intro visited result queue
    exact ⟨[], by simp [Pdb.processBases]⟩
  | cons b bs ih =>
    intro visited result queue
    by_cases hb : b ∈ visited
    · obtain ⟨Δ, h1, h2, h3, h4, h5, h6⟩ := ih visited result queue
      have hu : Pdb.processBases (b :: bs) visited result queue =
          Pdb.processBases bs visited result queue := by
        rw [Pdb.processBases, if_pos hb]
      refine ⟨Δ, ?_, ?_, ?_, h4, ?_, ?_⟩
      · intro x; rw [hu]; exact h1 x
      · rw [hu]; exact h2
      · rw [hu]; exact h3
      · intro x hx; exact ⟨List.mem_cons_of_mem _ (h5 x hx).1, (h5 x hx).2⟩
      · intro x hx
        rw [hu]
        rcases List.mem_cons.1 hx with rfl | hx'
        · exact (h1 x).2 (Or.inl hb)
        · exact h6 x hx'
    · obtain ⟨Δ, h1, h2, h3, h4, h5, h6⟩ :=
        ih (b :: visited) (result ++ [b]) (queue ++ [b])
      have hu : Pdb.processBases (b :: bs) visited result queue =
          Pdb.processBases bs (b :: visited) (result ++ [b]) (queue ++ [b]) := by
        rw [Pdb.processBases, if_neg hb]
      refine ⟨b :: Δ, ?_, ?_, ?_, ?_, ?_, ?_⟩
      · intro x
        rw [hu, h1 x]
        simp only [List.mem_cons]
        tauto
      · rw [hu, h2, List.append_assoc]; rfl
      · rw [hu, h3, List.append_assoc]; rfl
      · refine List.nodup_cons.2 ⟨?_, h4⟩
        intro hbΔ
        exact (h5 b hbΔ).2 (List.mem_cons_self b visited)
      · intro x hx
        rcases List.mem_cons.1 hx with rfl | hx'
        · exact ⟨List.mem_cons_self _ _, hb⟩
        · exact ⟨List.mem_cons_of_mem _ (h5 x hx').1,
            fun hv => (h5 x hx').2 (List.mem_cons_of_mem _ hv)⟩
      · intro x hx
        rw [hu]
        rcases List.mem_cons.1 hx with rfl | hx'
        · exact (h1 x).2 (Or.inl (List.mem_cons_self _ _))
        · exact h6 x hx'

/-- Splitting a filter count along a second boolean condition. -/
lemma length_filter_partition (l : List (List Nat)) (p q : List Nat → Bool) :
    (l.filter fun x => p x && q x).length +
      (l.filter fun x => p x && !q x).length = (l.filter p).length := by
  induction l with
  | nil => simp
  | cons a l ih =>
    by_cases hp : p a = true
    · by_cases hq : q a = true
      · simp [List.filter_cons, hp, hq, ih]
        omega
      · simp only [Bool.not_eq_true] at hq
        simp [List.filter_cons, hp, hq, ih]
        omega
    · simp only [Bool.not_eq_true] at hp
      simp [List.filter_cons, hp, ih]

/-- Marking the fresh list `Δ` visited drops the number of unvisited targets
by at least `Δ.length`. -/
lemma unvisited_count_drop (targets Δ visited v' : List (List Nat))
    (hv' : ∀ x, x ∈ v' ↔ x ∈ visited ∨ x ∈ Δ) (hnd : Δ.Nodup)
    (hsub : ∀ x ∈ Δ, x ∈ targets ∧ x ∉ visited) :
    (targets.filter fun x => decide (x ∉ v')).length + Δ.length ≤
      (targets.filter fun x => decide (x ∉ visited)).length := by
  have he : (targets.filter fun x => decide (x ∉ v')) =
      targets.filter fun x => decide (x ∉ visited) && decide (x ∉ Δ) := by
    apply List.filter_congr
    intro x _
    simp [hv' x]
  rw [he]
  have hpart := length_filter_partition targets
    (fun x => decide (x ∉ visited)) (fun x => decide (x ∉ Δ))
  have hsub2 : Δ ⊆ targets.filter
      fun x => decide (x ∉ visited) && !decide (x ∉ Δ) := by
    intro x hx
    refine List.mem_filter.2 ⟨(hsub x hx).1, ?_⟩
    simp [(hsub x hx).2, hx]
  have hle := (hnd.subperm hsub2).length_le
  omega

/-- If every visited class off the queue has all its bases visited, then
anything reachable from a visited class is either already visited or
reachable from a queue element. -/
lemma closure_step (edges : List (List Nat × List Nat))
    (v' q' : List (List Nat))
    (hcl : ∀ v ∈ v', v ∉ q' → ∀ t ∈ Pdb.inheritanceOf edges v, t ∈ v') :
    ∀ b x, InheritReaches edges b x → b ∈ v' →
      x ∈ v' ∨ ∃ q ∈ q', InheritReaches edges q x := by
  intro b x h
  induction h with
  | refl => exact fun hb => Or.inl hb
  | step hr e ih =>
    rename_i y z
    intro hb
    rcases ih hb with hy | ⟨q, hq, hqr⟩
    · by_cases hyq : y ∈ q'
      · exact Or.inr ⟨y, hyq, .single e⟩
      · exact Or.inl (hcl y hy hyq z (mem_inheritanceOf.2 e))
    · exact Or.inr ⟨q, hq, hqr.trans (.single e)⟩

/-- The BFS loop visits exactly the classes reachable from the queue, given
enough fuel: the result list is the starting result plus every class reachable
from a queue entry and not already in it. -/
lemma bfsGo_spec (edges : List (List Nat × List Nat)) :
    ∀ fuel visited result queue,
      (∀ y, y ∈ visited ↔ y ∈ result) →
      (∀ q ∈ queue, q ∈ visited) →
      (∀ v ∈ visited, v ∉ queue → ∀ t ∈ Pdb.inheritanceOf edges v, t ∈ visited) →
      queue.length +
        ((edges.map (·.2)).filter fun x => decide (x ∉ visited)).length < fuel →
      ∀ x, x ∈ Pdb.bfsGo (Pdb.inheritanceOf edges) fuel visited result queue ↔
        x ∈ result ∨ ∃ q ∈ queue, InheritReaches edges q x := by
  intro fuel
  induction fuel with
  | zero =>
    intro visited result queue _ _ _ hfuel
    omega
  | succ fuel ih =>
    intro visited result queue hvr hqv hcl hfuel x
    rcases queue with _ | ⟨current, rest⟩
    · have hu : Pdb.bfsGo (Pdb.inheritanceOf edges) (fuel + 1) visited result []
          = result := rfl
      rw [hu]
      simp
    · set s := Pdb.processBases (Pdb.inheritanceOf edges current) visited result
        rest with hs
      obtain ⟨Δ, h1, h2, h3, h4, h5, h6⟩ :=
        processBases_spec (Pdb.inheritanceOf edges current) visited result rest
      rw [← hs] at h1 h2 h3 h6
      have hu : Pdb.bfsGo (Pdb.inheritanceOf edges) (fuel + 1) visited result
          (current :: rest) = Pdb.bfsGo (Pdb.inheritanceOf edges) fuel s.1 s.2.1
          s.2.2 := rfl
      have hvr' : ∀ y, y ∈ s.1 ↔ y ∈ s.2.1 := by
        intro y
        rw [h2, List.mem_append, h1 y, hvr y]
      have hqv' : ∀ q ∈ s.2.2, q ∈ s.1 := by
        intro q hq
        rw [h3] at hq
        rcases List.mem_append.1 hq with h | h
        · exact (h1 q).2 (Or.inl (hqv q (List.mem_cons_of_mem _ h)))
        · exact (h1 q).2 (Or.inr h)
      have hcl' : ∀ v ∈ s.1, v ∉ s.2.2 →
          ∀ t ∈ Pdb.inheritanceOf edges v, t ∈ s.1 := by
        intro v hv hnq t ht
        rw [h3] at hnq
        rcases (h1 v).1 hv with hvis | hΔ
        · by_cases hvc : v = current
          · subst hvc
            exact h6 t ht
          · have hnq' : v ∉ current :: rest := by
              intro hmem
              rcases List.mem_cons.1 hmem with rfl | hr
              · exact hvc rfl
              · exact hnq (List.mem_append.2 (Or.inl hr))
            exact (h1 t).2 (Or.inl (hcl v hvis hnq' t ht))
        · exact absurd (List.mem_append.2 (Or.inr hΔ)) hnq
      have hsubT : ∀ z ∈ Δ, z ∈ edges.map (·.2) ∧ z ∉ visited := by
        intro z hz
        have hzi := (h5 z hz).1
        unfold Pdb.inheritanceOf at hzi
        obtain ⟨e, he, hee⟩ := List.mem_map.1 hzi
        exact ⟨List.mem_map.2 ⟨e, (List.mem_filter.1 he).1, hee⟩, (h5 z hz).2⟩
      have hdrop := unvisited_count_drop (edges.map (·.2)) Δ visited s.1 h1 h4
        hsubT
      have hlen : s.2.2.length = rest.length + Δ.length := by
        rw [h3, List.length_append]
      have hlen0 : (current :: rest).length = rest.length + 1 := by
        rw [List.length_cons]
      have hfuel' : s.2.2.length +
          ((edges.map (·.2)).filter fun z => decide (z ∉ s.1)).length < fuel := by
        omega
      have hmain := ih s.1 s.2.1 s.2.2 hvr' hqv' hcl' hfuel' x
      rw [hu, hmain]
      constructor
      · rintro (hx | ⟨q, hq, hqr⟩)
        · rw [h2] at hx
          rcases List.mem_append.1 hx with h | h
          · exact Or.inl h
          · exact Or.inr ⟨current, List.mem_cons_self _ _,
              .single (mem_inheritanceOf.1 (h5 x h).1)⟩
        · rw [h3] at hq
          rcases List.mem_append.1 hq with h | h
          · exact Or.inr ⟨q, List.mem_cons_of_mem _ h, hqr⟩
          · exact Or.inr ⟨current, List.mem_cons_self _ _,
              (InheritReaches.single (mem_inheritanceOf.1 (h5 q h).1)).trans hqr⟩
      · rintro (hx | ⟨q, hq, hqr⟩)
        · refine Or.inl ?_
          rw [h2]
          exact List.mem_append.2 (Or.inl hx)
        · rcases List.mem_cons.1 hq with rfl | hq'
          · have hcur : q ∈ s.1 :=
              (h1 q).2 (Or.inl (hqv q (List.mem_cons_self _ _)))
            rcases closure_step edges s.1 s.2.2 hcl' q x hqr hcur with hxv | hex
            · exact Or.inl ((hvr' x).1 hxv)
            · exact Or.inr hex
          · refine Or.inr ⟨q, ?_, hqr⟩
            rw [h3]
            exact List.mem_append.2 (Or.inl hq')

/-- `getInheritanceChain` returns exactly the classes reachable from the
seed class along recorded edges (the seed itself included). -/
lemma chain_spec (edges : List (List Nat × List Nat)) (cls : List Nat) :
    ∀ x, x ∈ Pdb.getInheritanceChain edges cls ↔ InheritReaches edges cls x := by
  intro x
  have hcl : ∀ v ∈ [cls], v ∉ [cls] →
      ∀ t ∈ Pdb.inheritanceOf edges v, t ∈ [cls] := by
    intro v hv hnv
    exact absurd hv hnv
  have hfuel : [cls].length +
      ((edges.map (·.2)).filter fun z => decide (z ∉ [cls])).length <
      edges.length + 2 := by
    have h1 : ((edges.map (·.2)).filter fun z => decide (z ∉ [cls])).length ≤
        (edges.map (·.2)).length := List.length_filter_le _ _
    have h2 : (edges.map (·.2)).length = edges.length := List.length_map _ _
    simp only [List.length_singleton]
    omega
  have h := bfsGo_spec edges (edges.length + 2) [cls] [cls] [cls]
    (fun y => Iff.rfl) (fun q hq => hq) hcl hfuel x
  rw [Pdb.getInheritanceChain, h]
  constructor
  · rintro (hx | ⟨q, hq, hqr⟩)
    · rw [List.mem_singleton] at hx
      subst hx
      exact InheritReaches.refl x
    · rw [List.mem_singleton] at hq
      subst hq
      exact hqr
  · intro hr
    exact Or.inr ⟨cls, List.mem_singleton.2 rfl, hr⟩

/-- The seen-set filter distributes over append, threading the seen set. -/
lemma dedupSeenWith_append (key : Pdb.Member → List Nat)
    (l₁ l₂ : List Pdb.Member) :
    ∀ seen, Pdb.dedupSeenWith key (l₁ ++ l₂) seen =
      ((Pdb.dedupSeenWith key l₁ seen).1 ++
        (Pdb.dedupSeenWith key l₂ (Pdb.dedupSeenWith key l₁ seen).2).1,
       (Pdb.dedupSeenWith key l₂ (Pdb.dedupSeenWith key l₁ seen).2).2) := by
  induction l₁ with
  | nil =>
    intro seen
    rfl
  | cons m ms ih =>
    intro seen
    by_cases hm : key m ∈ seen
    · have hl : Pdb.dedupSeenWith key ((m :: ms) ++ l₂) seen
          = Pdb.dedupSeenWith key (ms ++ l₂) seen := by
        rw [List.cons_append, Pdb.dedupSeenWith, if_pos hm]
      have hr : Pdb.dedupSeenWith key (m :: ms) seen
          = Pdb.dedupSeenWith key ms seen := by
        rw [Pdb.dedupSeenWith, if_pos hm]
      rw [hl, hr]
      exact ih seen
    · have hl : Pdb.dedupSeenWith key ((m :: ms) ++ l₂) seen
          = (m :: (Pdb.dedupSeenWith key (ms ++ l₂) (key m :: seen)).1,
             (Pdb.dedupSeenWith key (ms ++ l₂) (key m :: seen)).2) := by
        rw [List.cons_append, Pdb.dedupSeenWith, if_neg hm]
      have hr : Pdb.dedupSeenWith key (m :: ms) seen
          = (m :: (Pdb.dedupSeenWith key ms (key m :: seen)).1,
             (Pdb.dedupSeenWith key ms (key m :: seen)).2) := by
        rw [Pdb.dedupSeenWith, if_neg hm]
      rw [hl, hr, ih (key m :: seen)]
      rfl

/-- The class loop of `FindMembers` equals a single seen-set filter over the
concatenated per-class qualified lookups. -/
lemma findMembersLoop_eq (lookup : List Nat → List Pdb.Member)
    (memberName : List Nat) :
    ∀ classes seen, Pdb.findMembersLoop lookup memberName classes seen =
      (Pdb.dedupSeenWith Pdb.qualKey
        (classes.flatMap fun c =>
          lookup (c ++ Pdb.strBytes "::" ++ memberName)) seen).1 := by
  intro classes
  induction classes with
  | nil =>
    intro seen
    rfl
  | cons cls classes ih =>
    intro seen
    have hl : Pdb.findMembersLoop lookup memberName (cls :: classes) seen =
        (Pdb.dedupSeenWith Pdb.qualKey
          (lookup (cls ++ Pdb.strBytes "::" ++ memberName)) seen).1 ++
        Pdb.findMembersLoop lookup memberName classes
          (Pdb.dedupSeenWith Pdb.qualKey
            (lookup (cls ++ Pdb.strBytes "::" ++ memberName)) seen).2 := rfl
    have hfm : ((cls :: classes).flatMap fun c =>
        lookup (c ++ Pdb.strBytes "::" ++ memberName)) =
        lookup (cls ++ Pdb.strBytes "::" ++ memberName) ++
        (classes.flatMap fun c =>
          lookup (c ++ Pdb.strBytes "::" ++ memberName)) := rfl
    rw [hl, ih, hfm, dedupSeenWith_append]

/-- Every member kept by the seen-set filter comes from the input list and had
an unseen key. -/
lemma dedupSeenWith_sound (key : Pdb.Member → List Nat) :
    ∀ (l : List Pdb.Member) (seen : List (List Nat)) (x : Pdb.Member),
      x ∈ (Pdb.dedupSeenWith key l seen).1 → x ∈ l ∧ key x ∉ seen := by
  intro l
  induction l with
  | nil =>
    intro seen x hx
    cases hx
  | cons m ms ih =>
    intro seen x hx
    by_cases hm : key m ∈ seen
    · rw [Pdb.dedupSeenWith, if_pos hm] at hx
      obtain ⟨h1, h2⟩ := ih seen x hx
      exact ⟨List.mem_cons_of_mem _ h1, h2⟩
    · rw [Pdb.dedupSeenWith, if_neg hm] at hx
      replace hx : x ∈ m :: (Pdb.dedupSeenWith key ms (key m :: seen)).1 := hx
      rcases List.mem_cons.1 hx with rfl | hx'
      · exact ⟨List.mem_cons_self _ _, hm⟩
      · obtain ⟨h1, h2⟩ := ih (key m :: seen) x hx'
        exact ⟨List.mem_cons_of_mem _ h1,
          fun hc => h2 (List.mem_cons_of_mem _ hc)⟩

/-- Every input member with an unseen key is represented in the filter's
output by a member with the same key. -/
lemma dedupSeenWith_complete (key : Pdb.Member → List Nat) :
    ∀ (l : List Pdb.Member) (seen : List (List Nat)) (x : Pdb.Member),
      x ∈ l → key x ∉ seen →
      ∃ y ∈ (Pdb.dedupSeenWith key l seen).1, key y = key x := by
  intro l
  induction l with
  | nil =>
    intro seen x hx
    cases hx
  | cons m ms ih =>
    intro seen x hx hseen
    by_cases hm : key m ∈ seen
    · rcases List.mem_cons.1 hx with rfl | hx'
      · exact absurd hm hseen
      · rw [Pdb.dedupSeenWith, if_pos hm]
        exact ih seen x hx' hseen
    · rw [Pdb.dedupSeenWith, if_neg hm]
      show ∃ y ∈ m :: (Pdb.dedupSeenWith key ms (key m :: seen)).1, key y = key x
      rcases List.mem_cons.1 hx with hxm | hx'
      · exact ⟨m, List.mem_cons_self _ _, (congrArg key hxm).symm⟩
      · by_cases hk : key x = key m
        · exact ⟨m, List.mem_cons_self _ _, hk.symm⟩
        · have hns : key x ∉ key m :: seen := by
            intro hc
            rcases List.mem_cons.1 hc with h | h
            · exact hk h
            · exact hseen h
          obtain ⟨y, hy, hky⟩ := ih (key m :: seen) x hx' hns
          exact ⟨y, List.mem_cons_of_mem _ hy, hky⟩

/-- The filter's output has pairwise-distinct keys, none previously seen. -/
lemma dedupSeenWith_keys (key : Pdb.Member → List Nat) :
    ∀ (l : List Pdb.Member) (seen : List (List Nat)),
      List.Pairwise (fun a b => key a ≠ key b)
        (Pdb.dedupSeenWith key l seen).1 ∧
      ∀ x ∈ (Pdb.dedupSeenWith key l seen).1, key x ∉ seen := by
  intro l
  induction l with
  | nil =>
    intro seen
    exact ⟨List.Pairwise.nil, fun x hx => absurd hx (List.not_mem_nil x)⟩
  | cons m ms ih =>
    intro seen
    by_cases hm : key m ∈ seen
    · rw [Pdb.dedupSeenWith, if_pos hm]
      exact ih seen
    · rw [Pdb.dedupSeenWith, if_neg hm]
      obtain ⟨hpw, hns⟩ := ih (key m :: seen)
      constructor
      · show List.Pairwise _ (m :: (Pdb.dedupSeenWith key ms (key m :: seen)).1)
        refine List.pairwise_cons.2 ⟨?_, hpw⟩
        intro b hb hc
        exact hns b hb (by rw [← hc]; exact List.mem_cons_self _ _)
      · show ∀ x ∈ m :: (Pdb.dedupSeenWith key ms (key m :: seen)).1,
          key x ∉ seen
        intro x hx
        rcases List.mem_cons.1 hx with rfl | hx'
        · exact hm
        · exact fun hc => hns x hx' (List.mem_cons_of_mem _ hc)

/-! ## Claim theorems -/

/-- C3: opening an MSF file (a byte image whose 56-byte superblock parses)
succeeds if and only if the magic matches, the block size is a power of two in
[512, 65536], the free-block-map index is 1 or 2, and the file size is at
least `numBlocks * blockSize`; each violated condition produces the
corresponding error (`invalidMagic`, `invalidBlockSize`, `invalidFpmBlock`,
too-small), and on success the returned superblock is the parsed one. -/
theorem c3_newFile_validation (d : List Nat) (sb : Msf.SuperBlock)
    (hp : Msf.parseSuperBlock d = some sb) :
    (Msf.newFile d = .ok sb ↔
      sb.fileMagic = Msf.magic ∧ blockSizeOk sb.blockSize ∧
        (sb.freeBlockMapBlock = 1 ∨ sb.freeBlockMapBlock = 2) ∧
        sb.numBlocks * sb.blockSize ≤ d.length)
    ∧ (sb.fileMagic ≠ Msf.magic → Msf.newFile d = .error .invalidMagic)
    ∧ (sb.fileMagic = Msf.magic → ¬ blockSizeOk sb.blockSize →
        Msf.newFile d = .error .invalidBlockSize)
    ∧ (sb.fileMagic = Msf.magic → blockSizeOk sb.blockSize →
        ¬(sb.freeBlockMapBlock = 1 ∨ sb.freeBlockMapBlock = 2) →
        Msf.newFile d = .error .invalidFpmBlock)
    ∧ (sb.fileMagic = Msf.magic → blockSizeOk sb.blockSize →
        (sb.freeBlockMapBlock = 1 ∨ sb.freeBlockMapBlock = 2) →
        d.length < sb.numBlocks * sb.blockSize →
        Msf.newFile d = .error .fileTooSmall) := by
  have h56 : ¬ d.length < 56 := by
    intro hlt
    simp [Msf.parseSuperBlock, hlt] at hp
  have hnf : Msf.newFile d =
      (match Msf.validate sb with
       | some e => .error e
       | none =>
         if d.length < sb.numBlocks * sb.blockSize then .error .fileTooSmall
         else .ok sb) := by
    unfold Msf.newFile
    rw [if_neg h56, hp]
  refine ⟨?_, ?_, ?_, ?_, ?_⟩
  · rw [hnf]
    constructor
    · intro hok
      by_cases hm : sb.fileMagic = Msf.magic
      · by_cases hb : blockSizeOk sb.blockSize
        · by_cases hf : sb.freeBlockMapBlock = 1 ∨ sb.freeBlockMapBlock = 2
          · rw [validate_ok sb hm hb hf] at hok
            by_cases hsz : d.length < sb.numBlocks * sb.blockSize
            · rw [if_pos hsz] at hok
              cases hok
            · exact ⟨hm, hb, hf, by omega⟩
          · rw [validate_invalidFpm sb hm hb hf] at hok
            cases hok
        · rw [validate_invalidBlockSize sb hm hb] at hok
          cases hok
      · rw [validate_invalidMagic sb hm] at hok
        cases hok
    · rintro ⟨hm, hb, hf, hsz⟩
      rw [validate_ok sb hm hb hf, if_neg (by omega)]
  · intro hm
    rw [hnf, validate_invalidMagic sb hm]
  · intro hm hb
    rw [hnf, validate_invalidBlockSize sb hm hb]
  · intro hm hb hf
    rw [hnf, validate_invalidFpm sb hm hb hf]
  · intro hm hb hf hsz
    rw [hnf, validate_ok sb hm hb hf, if_pos hsz]

/-- C2: the address index contains exactly the `S_PUB32` entries collected
from the PSI address map, sorted ascending by (section, offset), and
`FindByAddress` returns the largest indexed entry with `entry.section = sec ∧
entry.offset ≤ offset` — `exact` true iff the offset matches exactly — or
not-found when no entry of that section lies at or below the offset. -/
theorem c2_address_index (addrMap symData : List Nat) (sec offset : Nat) :
    List.Pairwise
        (fun a b : Sym.SymbolAddress =>
          a.sec < b.sec ∨ (a.sec = b.sec ∧ a.offset ≤ b.offset))
        (Sym.newAddressIndex addrMap symData)
    ∧ (Sym.newAddressIndex addrMap symData).Perm (Sym.rawAddrEntries addrMap symData)
    ∧ (∀ e ∈ Sym.newAddressIndex addrMap symData,
        e.symOffset ∈ addrMap ∧ ∃ rec size sym,
          Sym.parseSymbolRecord (symData.drop e.symOffset) = .ok (rec, size) ∧
          rec.kind = Sym.S_PUB32 ∧ Sym.parsePublicSym32 rec.data = .ok sym ∧
          e.sec = sym.segment ∧ e.offset = sym.offset)
    ∧ ((∃ e ∈ Sym.newAddressIndex addrMap symData, e.sec = sec ∧ e.offset ≤ offset) →
        ∃ e exact, e ∈ Sym.newAddressIndex addrMap symData ∧
          e.sec = sec ∧ e.offset ≤ offset ∧
          Sym.findByAddress (Sym.newAddressIndex addrMap symData) sec offset =
            some (e.symOffset, exact) ∧
          (exact = true ↔ e.offset = offset) ∧
          (∀ e' ∈ Sym.newAddressIndex addrMap symData,
            e'.sec = sec → e'.offset ≤ offset → e'.offset ≤ e.offset))
    ∧ ((¬ ∃ e ∈ Sym.newAddressIndex addrMap symData,
          e.sec = sec ∧ e.offset ≤ offset) →
        Sym.findByAddress (Sym.newAddressIndex addrMap symData) sec offset = none) := by
  obtain ⟨hpos, hneg⟩ :=
    findByAddress_spec (Sym.newAddressIndex addrMap symData)
      (addrIndex_sorted addrMap symData) sec offset
  refine ⟨?_, List.mergeSort_perm _ _, ?_, hpos, hneg⟩
  · exact (addrIndex_sorted addrMap symData).imp fun h => (addrLE_iff _ _).1 h
  · intro e he
    exact rawAddrEntries_mem (((List.mergeSort_perm _ _).mem_iff).1 he)

/-- Witness for C2: a one-record symbol stream (an `S_PUB32` at section 1,
offset 0x100) with address map `[0]`: looking up section 1, offset 0x12C
returns that record's stream offset 0 with `exact = false`. -/
theorem c2_address_index_witness :
    Sym.findByAddress
      (Sym.newAddressIndex [0]
        [0x0E, 0x00, 0x0E, 0x11, 2, 0, 0, 0, 0, 1, 0, 0, 1, 0, 97, 0])
      1 300 = some (0, false) := by
  have h := c2_address_index [0]
    [0x0E, 0x00, 0x0E, 0x11, 2, 0, 0, 0, 0, 1, 0, 0, 1, 0, 97, 0] 1 300
  have hent : Sym.newAddressIndex [0]
      [0x0E, 0x00, 0x0E, 0x11, 2, 0, 0, 0, 0, 1, 0, 0, 1, 0, 97, 0] =
      [⟨1, 256, 0⟩] := by
    have hperm := h.2.1
    rw [show Sym.rawAddrEntries [0]
        [0x0E, 0x00, 0x0E, 0x11, 2, 0, 0, 0, 0, 1, 0, 0, 1, 0, 97, 0] =
        [⟨1, 256, 0⟩] from rfl] at hperm
    exact List.perm_singleton.1 hperm
  obtain ⟨e, exact, hmem, hsec, hoff, hfind, hiff, -⟩ :=
    h.2.2.2.1 ⟨⟨1, 256, 0⟩, by rw [hent]; exact List.mem_singleton.2 rfl,
      rfl, by norm_num⟩
  rw [hent] at hmem
  have he : e = (⟨1, 256, 0⟩ : Sym.SymbolAddress) := List.mem_singleton.1 hmem
  subst he
  have hex : exact = false := by
    cases hexact : exact
    · rfl
    · exfalso
      have := hiff.1 hexact
      simp at this
  rw [hex] at hfind
  exact hfind

/-- C4: `Reader.ReadNumeric` decodes the CodeView variable-length numeric: a
16-bit LE leaf `< 0x8000` is the value, consuming exactly two bytes;
`0x8000/1/2/3/4/9/a` select i8/i16/u16/i32/u32/i64/u64 with signed variants
sign-extended to 64 bits (`uint64` conversion of the signed value); any other
leaf `≥ 0x8000` fails with the invalid-numeric error.  Leaf `0x7FFF` yields
32767 with no trailing bytes; leaf `0x8001` followed by `FF FF` yields the
64-bit sign extension of −1. -/
theorem c4_readNumeric_spec (r : Strm.Reader) (leaf : Nat) (r1 : Strm.Reader)
    (hleaf : Strm.readU16 r = .ok (leaf, r1)) :
    (leaf < 0x8000 → Strm.readNumeric r = .ok (leaf, r1) ∧ r1.offset = r.offset + 2)
    ∧ (leaf = 0x8000 → ∀ v r2, Strm.readI8 r1 = .ok (v, r2) →
        Strm.readNumeric r = .ok (Strm.u64ofInt v, r2))
    ∧ (leaf = 0x8001 → ∀ v r2, Strm.readI16 r1 = .ok (v, r2) →
        Strm.readNumeric r = .ok (Strm.u64ofInt v, r2))
    ∧ (leaf = 0x8002 → ∀ v r2, Strm.readU16 r1 = .ok (v, r2) →
        Strm.readNumeric r = .ok (v, r2))
    ∧ (leaf = 0x8003 → ∀ v r2, Strm.readI32 r1 = .ok (v, r2) →
        Strm.readNumeric r = .ok (Strm.u64ofInt v, r2))
    ∧ (leaf = 0x8004 → ∀ v r2, Strm.readU32 r1 = .ok (v, r2) →
        Strm.readNumeric r = .ok (v, r2))
    ∧ (leaf = 0x8009 → ∀ v r2, Strm.readI64 r1 = .ok (v, r2) →
        Strm.readNumeric r = .ok (Strm.u64ofInt v, r2))
    ∧ (leaf = 0x800a → ∀ v r2, Strm.readU64 r1 = .ok (v, r2) →
        Strm.readNumeric r = .ok (v, r2))
    ∧ (0x8000 ≤ leaf →
        leaf ∉ ([0x8000, 0x8001, 0x8002, 0x8003, 0x8004, 0x8009, 0x800a] : List Nat) →
        Strm.readNumeric r = .error .invalidNumeric)
    ∧ Strm.readNumeric ⟨[0xFF, 0x7F], 0⟩ = .ok (32767, ⟨[0xFF, 0x7F], 2⟩)
    ∧ Strm.readNumeric ⟨[0x01, 0x80, 0xFF, 0xFF], 0⟩ =
        .ok (Strm.u64ofInt (-1), ⟨[0x01, 0x80, 0xFF, 0xFF], 4⟩)
    ∧ Strm.u64ofInt (-1) = 2 ^ 64 - 1 := by
  have hoff : r1.offset = r.offset + 2 := by
    unfold Strm.readU16 at hleaf
    split_ifs at hleaf
    cases hleaf
    rfl
  refine ⟨?_, ?_, ?_, ?_, ?_, ?_, ?_, ?_, ?_, rfl, rfl, rfl⟩
  · intro hlt
    refine ⟨?_, hoff⟩
    simp only [Strm.readNumeric, hleaf, if_pos hlt]
  · rintro rfl v r2 hv
    simp only [Strm.readNumeric, hleaf, hv]
    norm_num [Except.map]
  · rintro rfl v r2 hv
    simp only [Strm.readNumeric, hleaf, hv]
    norm_num [Except.map]
  · rintro rfl v r2 hv
    simp only [Strm.readNumeric, hleaf, hv]
    norm_num [Except.map]
  · rintro rfl v r2 hv
    simp only [Strm.readNumeric, hleaf, hv]
    norm_num [Except.map]
  · rintro rfl v r2 hv
    simp only [Strm.readNumeric, hleaf, hv]
    norm_num [Except.map]
  · rintro rfl v r2 hv
    simp only [Strm.readNumeric, hleaf, hv]
    norm_num [Except.map]
  · rintro rfl v r2 hv
    simp only [Strm.readNumeric, hleaf, hv]
    norm_num [Except.map]
  · intro hge hmem
    simp only [List.mem_cons, List.not_mem_nil] at hmem
    push_neg at hmem
    simp only [Strm.readNumeric, hleaf, if_neg (by omega : ¬ leaf < 0x8000)]
    split
    all_goals first
      | rfl
      | (exfalso; omega)

/-- Witness for C4: concrete decodes of `7F 12` (leaf 0x127F < 0x8000) and the
two boundary examples. -/
theorem c4_readNumeric_spec_witness :
    Strm.readNumeric ⟨[0x7F, 0x12], 0⟩ = .ok (0x127F, ⟨[0x7F, 0x12], 2⟩)
    ∧ Strm.readNumeric ⟨[0xFF, 0x7F], 0⟩ = .ok (32767, ⟨[0xFF, 0x7F], 2⟩)
    ∧ Strm.readNumeric ⟨[0x01, 0x80, 0xFF, 0xFF], 0⟩ =
        .ok (2 ^ 64 - 1, ⟨[0x01, 0x80, 0xFF, 0xFF], 4⟩) := by
  have h := c4_readNumeric_spec ⟨[0x7F, 0x12], 0⟩ 0x127F ⟨[0x7F, 0x12], 2⟩ rfl
  refine ⟨(h.1 (by norm_num)).1, h.2.2.2.2.2.2.2.2.2.1, ?_⟩
  have h2 := h.2.2.2.2.2.2.2.2.2.2.1
  have h3 := h.2.2.2.2.2.2.2.2.2.2.2
  rw [h3] at h2
  exact h2

/-- C7: `FindMembers` on a qualified query `Class::member` (first `::` at a
positive index) runs the inheritance BFS from `{Class}` — the visited chain is
exactly the set of classes reachable along the recorded
`LF_BCLASS`/`LF_VBCLASS`/`LF_IVBCLASS` edges — and yields the indexed members
whose qualified name is `visitedClass::member`, deduplicated by the
`owner::member` key: the result equals the seen-set filter of the per-class
qualified lookups over the chain, its keys are pairwise distinct, every result
is an indexed member (hence carries its owning class's name and its own
offset) whose key is `c::member` for some reachable `c`, and every qualified
match of a reachable class is represented in the result by a member with the
same key.  For an unqualified name (no `::`, or one at index 0) it yields
exactly the indexed members whose simple name matches, with no traversal. -/
theorem c7_findMembers_spec (store : Nat → Option Tpi.TypeRecord)
    (beginTi endTi : Nat) (name : List Nat) :
    (∀ idx, Pdb.indexOfColons name = some idx → 0 < idx →
      (Pdb.findMembers store beginTi endTi name =
        (Pdb.dedupSeenWith Pdb.qualKey
          ((Pdb.getInheritanceChain (Pdb.inheritEdges store beginTi endTi)
              (name.take idx)).flatMap fun c =>
            Pdb.byQualifiedName store beginTi endTi
              (c ++ Pdb.strBytes "::" ++ name.drop (idx + 2))) []).1) ∧
      (∀ c, c ∈ Pdb.getInheritanceChain (Pdb.inheritEdges store beginTi endTi)
          (name.take idx) ↔
        InheritReaches (Pdb.inheritEdges store beginTi endTi)
          (name.take idx) c) ∧
      List.Pairwise (fun m1 m2 => Pdb.qualKey m1 ≠ Pdb.qualKey m2)
        (Pdb.findMembers store beginTi endTi name) ∧
      (∀ m ∈ Pdb.findMembers store beginTi endTi name,
        m ∈ Pdb.indexedMembers store beginTi endTi ∧
        ∃ c, InheritReaches (Pdb.inheritEdges store beginTi endTi)
            (name.take idx) c ∧
          Pdb.qualKey m = c ++ Pdb.strBytes "::" ++ name.drop (idx + 2)) ∧
      (∀ c, InheritReaches (Pdb.inheritEdges store beginTi endTi)
          (name.take idx) c →
        ∀ m ∈ Pdb.byQualifiedName store beginTi endTi
            (c ++ Pdb.strBytes "::" ++ name.drop (idx + 2)),
          ∃ m2 ∈ Pdb.findMembers store beginTi endTi name,
            Pdb.qualKey m2 = Pdb.qualKey m)) ∧
    ((Pdb.indexOfColons name = none ∨ Pdb.indexOfColons name = some 0) →
      ∀ m, m ∈ Pdb.findMembers store beginTi endTi name ↔
        m ∈ Pdb.indexedMembers store beginTi endTi ∧ m.name = name) := by
  constructor
  · intro idx hidx hpos
    have hfm : Pdb.findMembers store beginTi endTi name =
        Pdb.findMembersLoop (Pdb.byQualifiedName store beginTi endTi)
          (name.drop (idx + 2))
          (Pdb.getInheritanceChain (Pdb.inheritEdges store beginTi endTi)
            (name.take idx)) [] := by
      rw [Pdb.findMembers, hidx]
      show (if 0 < idx then
          Pdb.findMembersLoop (Pdb.byQualifiedName store beginTi endTi)
            (name.drop (idx + 2))
            (Pdb.getInheritanceChain (Pdb.inheritEdges store beginTi endTi)
              (name.take idx)) []
        else Pdb.byName store beginTi endTi name) = _
      rw [if_pos hpos]
    have hloop := findMembersLoop_eq (Pdb.byQualifiedName store beginTi endTi)
      (name.drop (idx + 2))
      (Pdb.getInheritanceChain (Pdb.inheritEdges store beginTi endTi)
        (name.take idx)) []
    refine ⟨hfm.trans hloop, chain_spec _ _, ?_, ?_, ?_⟩
    · rw [hfm, hloop]
      exact (dedupSeenWith_keys Pdb.qualKey _ []).1
    · intro m hm
      rw [hfm, hloop] at hm
      obtain ⟨hmem, -⟩ := dedupSeenWith_sound Pdb.qualKey _ [] m hm
      obtain ⟨c, hc, hmq⟩ := List.mem_flatMap.1 hmem
      rw [Pdb.byQualifiedName] at hmq
      have h2 := List.mem_filter.1 hmq
      refine ⟨h2.1, c, (chain_spec _ _ c).1 hc, ?_⟩
      exact of_decide_eq_true h2.2
    · intro c hreach m hm
      have hc : c ∈ Pdb.getInheritanceChain
          (Pdb.inheritEdges store beginTi endTi) (name.take idx) :=
        (chain_spec _ _ c).2 hreach
      have hflat : m ∈ (Pdb.getInheritanceChain
          (Pdb.inheritEdges store beginTi endTi) (name.take idx)).flatMap
          fun c2 => Pdb.byQualifiedName store beginTi endTi
            (c2 ++ Pdb.strBytes "::" ++ name.drop (idx + 2)) :=
        List.mem_flatMap.2 ⟨c, hc, hm⟩
      obtain ⟨y, hy, hky⟩ := dedupSeenWith_complete Pdb.qualKey _ [] m hflat
        (List.not_mem_nil _)
      refine ⟨y, ?_, hky⟩
      rw [hfm, hloop]
      exact hy
  · intro hun m
    have hby : Pdb.findMembers store beginTi endTi name =
        Pdb.byName store beginTi endTi name := by
      rcases hun with h | h
      · rw [Pdb.findMembers, h]
      · rw [Pdb.findMembers, h]
        show (if 0 < 0 then
            Pdb.findMembersLoop (Pdb.byQualifiedName store beginTi endTi)
              (name.drop (0 + 2))
              (Pdb.getInheritanceChain (Pdb.inheritEdges store beginTi endTi)
                (name.take 0)) []
          else Pdb.byName store beginTi endTi name) = _
        rw [if_neg (lt_irrefl 0)]
    rw [hby, Pdb.byName, List.mem_filter]
    simp

/-- Witness for C7: a concrete store with `struct B { int m; }` at 0x1000
(field list 0x1001) and `struct D : B` at 0x1002 (field list 0x1003 holding an
LF_BCLASS leaf for B).  The query `"D::m"` (bytes [68,58,58,109]) finds B's
member `m` through the inheritance edge, carrying owner `B` (bytes [66]); the
edge set makes `B` reachable from `D`. -/
theorem c7_findMembers_spec_witness :
    Pdb.findMembers
      (fun ti =>
        if ti = 0x1000 then
          some ⟨Tpi.LF_STRUCTURE,
            [1, 0, 0, 0, 0x01, 0x10, 0, 0, 0, 0, 0, 0, 0, 0, 0, 0, 4, 0, 66, 0]⟩
        else if ti = 0x1001 then
          some ⟨Tpi.LF_FIELDLIST,
            [0x0D, 0x15, 3, 0, 0x74, 0, 0, 0, 0, 0, 109, 0]⟩
        else if ti = 0x1002 then
          some ⟨Tpi.LF_STRUCTURE,
            [1, 0, 0, 0, 0x03, 0x10, 0, 0, 0, 0, 0, 0, 0, 0, 0, 0, 4, 0, 68, 0]⟩
        else if ti = 0x1003 then
          some ⟨Tpi.LF_FIELDLIST,
            [0x00, 0x14, 3, 0, 0x00, 0x10, 0, 0, 0, 0]⟩
        else none)
      0x1000 0x1004 [68, 58, 58, 109] =
      [⟨[109], 0x74, 0, Pdb.strBytes "public", 0x1000, [66], false⟩] ∧
    InheritReaches
      (Pdb.inheritEdges
        (fun ti =>
          if ti = 0x1000 then
            some ⟨Tpi.LF_STRUCTURE,
              [1, 0, 0, 0, 0x01, 0x10, 0, 0, 0, 0, 0, 0, 0, 0, 0, 0, 4, 0, 66, 0]⟩
          else if ti = 0x1001 then
            some ⟨Tpi.LF_FIELDLIST,
              [0x0D, 0x15, 3, 0, 0x74, 0, 0, 0, 0, 0, 109, 0]⟩
          else if ti = 0x1002 then
            some ⟨Tpi.LF_STRUCTURE,
              [1, 0, 0, 0, 0x03, 0x10, 0, 0, 0, 0, 0, 0, 0, 0, 0, 0, 4, 0, 68, 0]⟩
          else if ti = 0x1003 then
            some ⟨Tpi.LF_FIELDLIST,
              [0x00, 0x14, 3, 0, 0x00, 0x10, 0, 0, 0, 0]⟩
          else none)
        0x1000 0x1004) [68] [66] := by
  have h := c7_findMembers_spec
    (fun ti =>
      if ti = 0x1000 then
        some ⟨Tpi.LF_STRUCTURE,
          [1, 0, 0, 0, 0x01, 0x10, 0, 0, 0, 0, 0, 0, 0, 0, 0, 0, 4, 0, 66, 0]⟩
      else if ti = 0x1001 then
        some ⟨Tpi.LF_FIELDLIST,
          [0x0D, 0x15, 3, 0, 0x74, 0, 0, 0, 0, 0, 109, 0]⟩
      else if ti = 0x1002 then
        some ⟨Tpi.LF_STRUCTURE,
          [1, 0, 0, 0, 0x03, 0x10, 0, 0, 0, 0, 0, 0, 0, 0, 0, 0, 4, 0, 68, 0]⟩
      else if ti = 0x1003 then
        some ⟨Tpi.LF_FIELDLIST,
          [0x00, 0x14, 3, 0, 0x00, 0x10, 0, 0, 0, 0]⟩
      else none)
    0x1000 0x1004 [68, 58, 58, 109]
  obtain ⟨heq, hchain, -, -, -⟩ := h.1 1 rfl (by norm_num)
  constructor
  · rw [heq]
    rfl
  · refine ((hchain [66]).1 ?_)
    · show [66] ∈ Pdb.getInheritanceChain _ ([68, 58, 58, 109].take 1)
      decide

/-- C8: evaluation of `GetMembers` on a TPI store containing
`struct S { int x; static int s; }` (index 0x1000, field list 0x1001).  The
members come back in field-list order, the instance member with its decoded
offset and the static member with offset 0 — but the static member is NOT
flagged static (`IsStatic = false`), because `GetMembers` omits the field
when building the `Member`, contradicting the claim, the `Member` struct's
own documentation, and the sibling `buildMemberIndex` (whose index entry for
the very same record, also evaluated here, has `IsStatic = true`). -/
theorem c8_getMembers_static_flag_eval :
    Pdb.getMembers
      (fun ti =>
        if ti = 0x1000 then
          some ⟨Tpi.LF_STRUCTURE,
            [1, 0, 0, 0, 0x01, 0x10, 0, 0, 0, 0, 0, 0, 0, 0, 0, 0, 8, 0, 83, 0]⟩
        else if ti = 0x1001 then
          some ⟨Tpi.LF_FIELDLIST,
            [0x0D, 0x15, 3, 0, 0x74, 0, 0, 0, 0, 0, 120, 0,
             0x0E, 0x15, 3, 0, 0x74, 0, 0, 0, 115, 0]⟩
        else none)
      0x1000 =
      .ok [⟨[120], 0x74, 0, Pdb.strBytes "public", 0x1000, [83], false⟩,
           ⟨[115], 0x74, 0, Pdb.strBytes "public", 0x1000, [83], false⟩]
    ∧ Pdb.indexedMembers
      (fun ti =>
        if ti = 0x1000 then
          some ⟨Tpi.LF_STRUCTURE,
            [1, 0, 0, 0, 0x01, 0x10, 0, 0, 0, 0, 0, 0, 0, 0, 0, 0, 8, 0, 83, 0]⟩
        else if ti = 0x1001 then
          some ⟨Tpi.LF_FIELDLIST,
            [0x0D, 0x15, 3, 0, 0x74, 0, 0, 0, 0, 0, 120, 0,
             0x0E, 0x15, 3, 0, 0x74, 0, 0, 0, 115, 0]⟩
        else none)
      0x1000 0x1002 =
      [⟨[120], 0x74, 0, Pdb.strBytes "public", 0x1000, [83], false⟩,
       ⟨[115], 0x74, 0, Pdb.strBytes "public", 0x1000, [83], true⟩] := by
  exact ⟨rfl, rfl⟩

/-- C9: the demangler's error policy.  `DemangleSimple` (which backs the lazy
`DemangledName`) never surfaces an error: whenever the parse fails the
original decorated string is returned unchanged, while a direct caller of
`Demangle` receives the typed error alongside the original string.  A
non-decorated input (no leading `?`) is returned as-is except that a single
leading `_` is stripped; the empty input yields `EmptyInput` from `Demangle`
but the empty string from `DemangleSimple`. -/
theorem c9_demangle_error_policy (parse : List Char → Except Dem.DError (List Char))
    (decorated : List Char) :
    (∀ e, (Dem.demangle parse decorated).2 = some e →
       Dem.demangleSimple parse decorated = decorated)
    ∧ (∀ rest e, decorated = '?' :: rest → parse decorated = .error e →
       Dem.demangle parse decorated = (decorated, some e))
    ∧ (∀ c rest, decorated = c :: rest → c ≠ '?' →
       Dem.demangle parse decorated = ((if c = '_' then rest else decorated), none)
       ∧ Dem.demangleSimple parse decorated = (if c = '_' then rest else decorated))
    ∧ (decorated = [] →
       Dem.demangle parse decorated = ([], some .emptyInput)
       ∧ Dem.demangleSimple parse decorated = []) := by
  refine ⟨?_, ?_, ?_, ?_⟩
  · intro e he
    unfold Dem.demangleSimple
    rcases h : Dem.demangle parse decorated with ⟨res, err⟩
    rw [h] at he
    simp at he
    rw [he]
  · rintro rest e rfl hp
    simp only [Dem.demangle, hp]
    simp
  · rintro c rest rfl hc
    constructor
    · simp only [Dem.demangle, if_pos hc]
    · simp only [Dem.demangleSimple, Dem.demangle, if_pos hc]
  · rintro rfl
    exact ⟨rfl, rfl⟩

/-- Witness for C9: with a parser that always fails, `DemangleSimple` returns
the decorated input `?f` unchanged, and `Demangle` pairs it with the typed
error; `_main` has its leading underscore stripped. -/
theorem c9_demangle_error_policy_witness :
    Dem.demangleSimple (fun _ => .error .invalidMangled) ['?', 'f'] = ['?', 'f']
    ∧ Dem.demangle (fun _ => .error .invalidMangled) ['?', 'f'] =
        (['?', 'f'], some .invalidMangled)
    ∧ Dem.demangle (fun _ => .error .invalidMangled) ['_', 'm'] = (['m'], none) := by
  have h := c9_demangle_error_policy (fun _ => .error .invalidMangled) ['?', 'f']
  have h2 := c9_demangle_error_policy (fun _ => .error .invalidMangled) ['_', 'm']
  have hd := h.2.1 ['f'] .invalidMangled rfl rfl
  refine ⟨h.1 .invalidMangled (by rw [hd]), hd, ?_⟩
  have := (h2.2.2.1 '_' ['m'] rfl (by decide)).1
  simpa using this

/-- C1: for a virtual stream, the byte read at offset `o < S` is the byte of
the underlying file at physical offset `blocks[o / B] * B + o % B`, and any
`ReadAt` at `off ≥ S` (or `Read` with the cursor at or past `S`) returns EOF
with zero bytes read. -/
theorem c1_stream_readAt_spec (s : Msf.Stream) (o plen : Nat) (off : Int) :
    (0 < s.blockSize → o < s.streamSize → o / s.blockSize < s.blocks.length →
      s.blocks.getD (o / s.blockSize) 0 * s.blockSize + o % s.blockSize < s.fileSize →
      Msf.readAt s 1 (o : Int) =
        ([s.file (s.blocks.getD (o / s.blockSize) 0 * s.blockSize + o % s.blockSize)],
         none))
    ∧ ((s.streamSize : Int) ≤ off → Msf.readAt s plen off = ([], some .eof))
    ∧ (s.streamSize ≤ s.pos → Msf.read s plen = ([], s.pos, some .eof)) := by
  refine ⟨?_, ?_, ?_⟩
  · intro hB ho hblk hfile
    have hmod : o % s.blockSize < s.blockSize := Nat.mod_lt o hB
    have hneg : ¬ ((o : Int) < 0) := by omega
    have hlt : ¬ ((s.streamSize : Int) ≤ (o : Int)) := by exact_mod_cast Nat.not_le.2 ho
    unfold Msf.readAt
    rw [if_neg hneg, if_neg hlt, Int.toNat_natCast]
    have h1 : ¬ (s.blockSize - o % s.blockSize < 1) := by omega
    have h2 : ¬ (s.streamSize - o < 1) := by omega
    have h3 : ¬ (s.blocks.length ≤ o / s.blockSize) := by omega
    have hk : min 1 (s.fileSize -
        (s.blocks.getD (o / s.blockSize) 0 * s.blockSize + o % s.blockSize)) = 1 := by
      omega
    have hloop : Msf.readAtLoop s 2 1 o [] =
        .fell [s.file (s.blocks.getD (o / s.blockSize) 0 * s.blockSize + o % s.blockSize)] := by
      rw [show (2 : Nat) = 1 + 1 from rfl]
      unfold Msf.readAtLoop
      simp only [Msf.fileReadAt, hk, if_pos (And.intro Nat.one_pos ho), if_neg h3,
        if_neg h1, if_neg h2, List.length_cons, List.nil_append]
      norm_num [List.range_succ]
      unfold Msf.readAtLoop
      simp
    rw [hloop]
    simp
  · intro hoff
    unfold Msf.readAt
    rw [if_neg (by omega), if_pos hoff]
  · intro hpos
    unfold Msf.read
    rw [if_pos hpos]

/-- Witness for C1: a stream over a 16-byte file (byte `i` has value `i`) with
block list `[2]`, block size 4 and stream size 3: reading one byte at stream
offset 1 yields the file byte at physical offset `2*4 + 1 = 9`, and reads at
offset 3 hit EOF. -/
theorem c1_stream_readAt_spec_witness :
    Msf.readAt ⟨16, fun i => i, [2], 4, 3, 0⟩ 1 (1 : Nat) = ([9], none)
    ∧ Msf.readAt ⟨16, fun i => i, [2], 4, 3, 0⟩ 5 3 = ([], some .eof) := by
  have h := c1_stream_readAt_spec ⟨16, fun i => i, [2], 4, 3, 0⟩ 1 5 3
  refine ⟨?_, h.2.1 (by norm_num)⟩
  have h1 := h.1 (by norm_num) (by norm_num) (by norm_num) (by norm_num)
  simpa using h1

/-- C10: `Stream.Seek` never fails for in-range or past-end targets: a
non-negative computed target is accepted, clamped to the stream size when it
exceeds it (after which reads return EOF), and the returned position equals
the cursor actually stored; a negative computed target or an unknown `whence`
returns an error leaving the cursor unchanged. -/
theorem c10_seek_spec (s : Msf.Stream) (offset : Int) (whence : Nat)
    (h32 : s.streamSize < 2 ^ 32) :
    (Msf.seekTarget s offset whence = none →
      Msf.seek s offset whence = (.error .invalidWhence, s.pos))
    ∧ (∀ t, Msf.seekTarget s offset whence = some t →
        (t < 0 → Msf.seek s offset whence = (.error .negativePosition, s.pos))
        ∧ (0 ≤ t → t ≤ (s.streamSize : Int) →
            Msf.seek s offset whence = (.ok t, t.toNat))
        ∧ ((s.streamSize : Int) < t →
            Msf.seek s offset whence = (.ok (s.streamSize : Int), s.streamSize)
            ∧ ∀ plen, Msf.read { s with pos := s.streamSize } plen =
                ([], s.streamSize, some .eof)))
    ∧ (∀ r, (Msf.seek s offset whence).1 = .ok r →
        (((Msf.seek s offset whence).2 : Int)) = r) := by
  refine ⟨?_, ?_, ?_⟩
  · intro hn
    simp only [Msf.seek, hn]
  · intro t ht
    refine ⟨?_, ?_, ?_⟩
    · intro hneg
      simp only [Msf.seek, ht, if_pos hneg]
    · intro h0 hle
      simp only [Msf.seek, ht]
      rw [if_neg (by omega), if_neg (by omega)]
      have : t.toNat % 2 ^ 32 = t.toNat := by
        apply Nat.mod_eq_of_lt
        omega
      rw [this]
    · intro hgt
      constructor
      · simp only [Msf.seek, ht]
        rw [if_neg (by omega), if_pos hgt]
        have : ((s.streamSize : Int)).toNat % 2 ^ 32 = s.streamSize := by
          simp only [Int.toNat_natCast]
          omega
        rw [this]
      · intro plen
        unfold Msf.read
        rw [if_pos (by simp)]
  · intro r hok
    rcases hw : Msf.seekTarget s offset whence with _ | t
    · simp only [Msf.seek, hw] at hok
      cases hok
    · simp only [Msf.seek, hw] at hok ⊢
      by_cases hneg : t < 0
      · rw [if_pos hneg] at hok
        cases hok
      · rw [if_neg hneg] at hok ⊢
        simp only at hok ⊢
        have hr : r = if (s.streamSize : Int) < t then (s.streamSize : Int) else t := by
          cases hok
          rfl
        subst hr
        by_cases hgt : (s.streamSize : Int) < t
        · simp only [if_pos hgt, Int.toNat_natCast]
          omega
        · simp only [if_neg hgt]
          omega

/-- Witness for C10: on a stream of size 10 with cursor 3, seeking to 20 from
the start clamps to 10 and stores 10. -/
theorem c10_seek_spec_witness :
    Msf.seek ⟨0, fun _ => 0, [], 4, 10, 3⟩ 20 0 = (.ok 10, 10) := by
  have h := c10_seek_spec ⟨0, fun _ => 0, [], 4, 10, 3⟩ 20 0 (by norm_num)
  have h2 := ((h.2.1 20 rfl).2.2 (by norm_num)).1
  simpa using h2

/-- C5: record iteration advances by the length field alone.  A successful
`ParseSymbolRecord` returns size `length + 2` computed from the 16-bit length
field; framing (success, size, kind) depends only on the input length and the
four header bytes, never on the payload; replacing the payload of any record
visited by the scan loops (`Public`/`PublicCached`/`PublicCount`/name-index
build, all embedded as `scanRecords`) with arbitrary bytes of the same length
leaves the visited offsets and sizes unchanged — in particular a payload
decode failure cannot desynchronize iteration; and every visited record is a
successful parse at its own offset. -/
theorem c5_framing_advance :
    (∀ d (rec : Sym.SymbolRecord) size, Sym.parseSymbolRecord d = .ok (rec, size) →
        size = (Strm.byteAt d 0 + 256 * Strm.byteAt d 1) + 2)
    ∧ (∀ d₁ d₂ (rec : Sym.SymbolRecord) size, d₁.length = d₂.length →
        d₁.take 4 = d₂.take 4 → Sym.parseSymbolRecord d₁ = .ok (rec, size) →
        ∃ rec₂, Sym.parseSymbolRecord d₂ = .ok (rec₂, size) ∧ rec₂.kind = rec.kind)
    ∧ (∀ d offset (rec : Sym.SymbolRecord) size junk,
        (offset, rec, size) ∈ Sym.scanRecords d → junk.length = size - 4 →
        (Sym.scanRecords (d.take (offset + 4) ++ junk ++ d.drop (offset + size))).map
            (fun t => (t.1, t.2.2)) =
          (Sym.scanRecords d).map (fun t => (t.1, t.2.2)))
    ∧ (∀ d offset (rec : Sym.SymbolRecord) size,
        (offset, rec, size) ∈ Sym.scanRecords d →
        Sym.parseSymbolRecord (d.drop offset) = .ok (rec, size)) := by
  refine ⟨?_, ?_, ?_, ?_⟩
  · intro d rec size h
    exact (parseSymbolRecord_ok h).1
  · intro d₁ d₂ rec size hlen hhdr h
    exact parseSymbolRecord_framing hlen hhdr h
  · intro d offset rec size junk hmem hjunk
    exact scan_payload_replace d offset size rec junk hmem hjunk
  · intro d offset rec size hmem
    exact (scan_mem d d.length 0 (by omega) offset rec size hmem).1

/-- Witness for C5: a stream of two well-framed `S_PUB32` records; replacing
the first record's 12-byte payload with `0xFF` bytes (whose `ParsePublicSym32`
fails) leaves the visited (offset, size) chain unchanged. -/
theorem c5_framing_advance_witness :
    (Sym.scanRecords
        ((([0x0E, 0x00, 0x0E, 0x11, 2, 0, 0, 0, 0, 1, 0, 0, 1, 0, 97, 0,
            0x0E, 0x00, 0x0E, 0x11, 2, 0, 0, 0, 0, 2, 0, 0, 1, 0, 98, 0] : List Nat).take 4)
          ++ [0xFF, 0xFF, 0xFF, 0xFF, 0xFF, 0xFF, 0xFF, 0xFF, 0xFF, 0xFF, 0xFF, 0xFF]
          ++ (([0x0E, 0x00, 0x0E, 0x11, 2, 0, 0, 0, 0, 1, 0, 0, 1, 0, 97, 0,
               0x0E, 0x00, 0x0E, 0x11, 2, 0, 0, 0, 0, 2, 0, 0, 1, 0, 98, 0] : List Nat).drop 16))).map
        (fun t => (t.1, t.2.2)) =
      (Sym.scanRecords
        [0x0E, 0x00, 0x0E, 0x11, 2, 0, 0, 0, 0, 1, 0, 0, 1, 0, 97, 0,
         0x0E, 0x00, 0x0E, 0x11, 2, 0, 0, 0, 0, 2, 0, 0, 1, 0, 98, 0]).map
        (fun t => (t.1, t.2.2))
    ∧ Sym.parsePublicSym32
        [0xFF, 0xFF, 0xFF, 0xFF, 0xFF, 0xFF, 0xFF, 0xFF, 0xFF, 0xFF, 0xFF, 0xFF] =
      .error .unexpectedEOF := by
  constructor
  · exact c5_framing_advance.2.2.1
      [0x0E, 0x00, 0x0E, 0x11, 2, 0, 0, 0, 0, 1, 0, 0, 1, 0, 97, 0,
       0x0E, 0x00, 0x0E, 0x11, 2, 0, 0, 0, 0, 2, 0, 0, 1, 0, 98, 0]
      0 ⟨0x110E, [2, 0, 0, 0, 0, 1, 0, 0, 1, 0, 97, 0]⟩ 16
      [0xFF, 0xFF, 0xFF, 0xFF, 0xFF, 0xFF, 0xFF, 0xFF, 0xFF, 0xFF, 0xFF, 0xFF]
      (by decide) (by decide)
  · rfl

/-- C6: the 4096-bucket name index.  Every offset returned by
`NameIndex.FindByName n` designates a well-framed record whose raw name is
exactly `n`; every record visited by the index-building scan whose raw name is
a non-empty `n` is found; and the hash-bucket walk with exact comparison
returns exactly the exact-name matches of the index (the hash
`h := h*31 + b mod 2^32` with bucket `h mod 4096` never drops a match). -/
theorem c6_name_index (d name : List Nat) :
    (∀ o ∈ Sym.findByName d name, ∃ rec size,
        Sym.parseSymbolRecord (d.drop o) = .ok (rec, size) ∧
        Sym.getSymbolName rec = name)
    ∧ (∀ off (rec : Sym.SymbolRecord) size, (off, rec, size) ∈ Sym.scanRecords d →
        Sym.getSymbolName rec = name → name ≠ [] →
        off ∈ Sym.findByName d name)
    ∧ Sym.findByName d name =
        ((Sym.nameEntries d).filter fun e => e.name = name).map (·.symOffset) := by
  refine ⟨?_, ?_, findByName_eq_filter d name⟩
  · intro o ho
    rw [findByName_eq_filter] at ho
    obtain ⟨e, he, heo⟩ := List.mem_map.1 ho
    obtain ⟨hee, hname⟩ := List.mem_filter.1 he
    obtain ⟨t, ht, hte⟩ := List.mem_filterMap.1 hee
    simp only at hte
    by_cases hn : Sym.getSymbolName t.2.1 = []
    · rw [if_pos hn] at hte
      cases hte
    · rw [if_neg hn] at hte
      obtain ⟨rfl⟩ := Option.some.inj hte
      have ht1 : t.1 = o := heo
      have hnm : Sym.getSymbolName t.2.1 = name := by simpa using hname
      obtain ⟨hparse, -⟩ := scan_mem d d.length 0 (by omega) t.1 t.2.1 t.2.2
        (by simpa using ht)
      rw [ht1] at hparse
      exact ⟨t.2.1, t.2.2, hparse, hnm⟩
  · intro off rec size hmem hname hne
    rw [findByName_eq_filter]
    apply List.mem_map.2
    refine ⟨⟨name, off⟩, ?_, rfl⟩
    apply List.mem_filter.2
    refine ⟨?_, by simp⟩
    apply List.mem_filterMap.2
    refine ⟨(off, rec, size), hmem, ?_⟩
    simp only
    rw [hname, if_neg hne]

/-- Witness for C6: in the two-record stream of the C5 witness, looking up the
name `"a"` (byte 97) returns offset 0, and the record there indeed carries
that raw name. -/
theorem c6_name_index_witness :
    0 ∈ Sym.findByName
      [0x0E, 0x00, 0x0E, 0x11, 2, 0, 0, 0, 0, 1, 0, 0, 1, 0, 97, 0,
       0x0E, 0x00, 0x0E, 0x11, 2, 0, 0, 0, 0, 2, 0, 0, 1, 0, 98, 0] [97] := by
  exact (c6_name_index
      [0x0E, 0x00, 0x0E, 0x11, 2, 0, 0, 0, 0, 1, 0, 0, 1, 0, 97, 0,
       0x0E, 0x00, 0x0E, 0x11, 2, 0, 0, 0, 0, 2, 0, 0, 1, 0, 98, 0] [97]).2.1
    0 ⟨0x110E, [2, 0, 0, 0, 0, 1, 0, 0, 1, 0, 97, 0]⟩ 16
    (by decide) (by decide) (by decide)

/-- Witness for C3: a concrete 56-byte file with valid magic, block size 512,
FPM index 1 and zero blocks opens successfully. -/
theorem c3_newFile_validation_witness :
    Msf.newFile (Msf.magic ++
        [0x00, 0x02, 0x00, 0x00, 0x01, 0x00, 0x00, 0x00, 0x00, 0x00, 0x00, 0x00,
         0x00, 0x00, 0x00, 0x00, 0x00, 0x00, 0x00, 0x00, 0x00, 0x00, 0x00, 0x00]) =
      .ok ⟨Msf.magic, 512, 1, 0, 0, 0, 0⟩ := by
  have h := c3_newFile_validation
    (Msf.magic ++
        [0x00, 0x02, 0x00, 0x00, 0x01, 0x00, 0x00, 0x00, 0x00, 0x00, 0x00, 0x00,
         0x00, 0x00, 0x00, 0x00, 0x00, 0x00, 0x00, 0x00, 0x00, 0x00, 0x00, 0x00])
    ⟨Msf.magic, 512, 1, 0, 0, 0, 0⟩ (by decide)
  exact h.1.2 ⟨by decide, ⟨⟨9, by norm_num⟩, by decide, by decide⟩, Or.inl rfl, by decide⟩

end PdbGo
